import Mathlib

set_option maxHeartbeats 1000000

/-!
Verification of the layered-graph shortest-path reranking engine of
`src/src/metabolite_identification_cls.py` against its specification.

Modelling conventions:
* Python floats are modelled as rationals `ℚ`; the `np.inf` entries of the
  dynamic-programming cost table `S_path` are modelled by `WithTop ℚ`, and
  the `-np.inf` initial entries of the diagnostic table `dW_path` by
  `WithBot ℚ`.
* The `np.inf` default values of the scalar parameters `cut_off_n_cand`
  and `epsilon_rt` are modelled by `Option`: `none` stands for `np.inf`.
* `np.log` is kept abstract as a parameter `lg : ℚ → ℚ`; the only fact
  about it any theorem relies on is `lg 1 = 0`, which is exact for
  `np.log` on floats.
* A Python exception (a failed `assert` when `check_input` is on, or an
  index error / `np.nan` parent during backtracking) is modelled by the
  value `none` of the `Option`-typed result.
-/

/-- Parent-pointer entries of the dynamic program: `-1` (every candidate of
layer 0), `np.nan` (the initial value for later layers, never overwritten
only when a node is never relaxed), or a predecessor candidate index. -/
inductive Par where
  | root : Par
  | unset : Par
  | node : ℕ → Par
  deriving DecidableEq, Repr

/-- One cell of the DP tables: accumulated path cost (`S_path`), accumulated
order-score difference (`dW_path`, diagnostic only), and parent pointer. -/
abbrev Slot := WithTop ℚ × WithBot ℚ × Par

def defSlot : Slot := (⊤, ⊥, Par.unset)

/-- One candidate layer, mirroring the per-layer dictionary built by
`_process_single_candidate_list`.  Only the fields read by the solver and
the reranker are kept; reporting-only fields (`ranks`, `d_squared`,
`inchis`, `spec_id`, ...) are omitted. -/
structure CandLayer where
  iokrscores : List ℚ
  wtx : List ℚ
  rt_cand_list : ℚ
  is_true_identification : List Bool
  is_blocked : List Bool
  deriving DecidableEq, Repr

def emptyLayer : CandLayer := ⟨[], [], 0, [], []⟩

/-- Comparison of a rational against an `np.inf`-able threshold: `none`
models `np.inf`, against which every finite value compares `≤`. -/
def leOptQ (x : ℚ) : Option ℚ → Bool
  | none => true
  | some e => decide (x ≤ e)

/-- Model of `np.sign` on a rational. -/
def qsign (q : ℚ) : ℚ := if 0 < q then 1 else if q < 0 then -1 else 0

/-- Configuration record for `_weight_func_max`: the keyword arguments `D`,
`use_sign`, `epsilon_rt` and `use_log` it asserts to be present. -/
structure WCfg where
  D : ℚ
  use_sign : Bool
  epsilon_rt : Option ℚ
  use_log : Bool
  deriving DecidableEq, Repr

/-- Shallow embedding of `_weight_func_max` (the leading underscore is
dropped).  `lg` models `np.log`.  Out-of-range indices read default values
via `getD`, where Python would raise; all theorems stay within range. -/
def weight_func_max (lg : ℚ → ℚ) (cfg : WCfg) (cand_data : List CandLayer)
    (u v : ℕ × ℕ) : ℚ × ℚ :=
  let t := u.1
  let i := u.2
  let tp1 := v.1
  let j := v.2
  let s_tp1_j := (cand_data.getD tp1 emptyLayer).iokrscores.getD j 0
  let dW0 : ℚ :=
    if leOptQ |(cand_data.getD t emptyLayer).rt_cand_list -
        (cand_data.getD tp1 emptyLayer).rt_cand_list| cfg.epsilon_rt then 0
    else (cand_data.getD t emptyLayer).wtx.getD i 0 -
      (cand_data.getD tp1 emptyLayer).wtx.getD j 0
  let dW1 : ℚ := if cfg.use_sign then qsign dW0 else dW0
  let penalty0 : ℚ := max 0 dW1
  let penalty : ℚ := if cfg.use_log then lg (penalty0 + 1) else penalty0
  (- s_tp1_j + cfg.D * penalty, dW1)

/-- Modelled from the spec: `helper_cls.is_sorted` with `ascending = False`
(the helper module is not among the sources); per section 4.2 of the spec
it checks that the given score list is descending. -/
def is_sorted_desc : List ℚ → Bool
  | [] => true
  | [_] => true
  | a :: b :: rest => decide (b ≤ a) && is_sorted_desc (b :: rest)

/-- The `check_input` block of the solvers: per layer, scores descending,
retention time not below the previous layer's (initially `-np.inf`,
modelled by `⊥`), and — only when blocked candidates are excluded — a
blocked vector of matching length. -/
def checkLayers (exclude : Bool) : WithBot ℚ → List CandLayer → Bool
  | _, [] => true
  | rt, l :: rest =>
    is_sorted_desc l.iokrscores &&
    decide (rt ≤ (l.rt_cand_list : WithBot ℚ)) &&
    (!exclude || decide (l.is_blocked.length = l.iokrscores.length)) &&
    checkLayers exclude (l.rt_cand_list : WithBot ℚ) rest

def checkInputOk (exclude : Bool) (cd : List CandLayer) : Bool :=
  checkLayers exclude ⊥ cd

/-- Retained width of a layer: `int(np.minimum(width, cut_off_n_cand))`,
with `none` modelling the default `np.inf`. -/
def cutMin (n : ℕ) : Option ℕ → ℕ
  | none => n
  | some c => min n c

abbrev WeightFun := List CandLayer → ℕ × ℕ → ℕ × ℕ → ℚ × ℚ

/-- Inner relaxation loop (`for j in range(n_cand_tp1)`) for a fixed head
candidate `(t, i)` whose accumulated cost is `s_t_i`. -/
def relaxInner (wf : WeightFun) (cd : List CandLayer) (exclude : Bool) (t i : ℕ)
    (s_t_i : WithTop ℚ) (dW_t_i : WithBot ℚ) (n_tp1 : ℕ) (row : List Slot) : List Slot :=
  (List.range n_tp1).foldl (fun r j =>
    if exclude && (cd.getD (t+1) emptyLayer).is_blocked.getD j false then r
    else
      let wdw := wf cd (t, i) (t+1, j)
      let s_tp1_j := s_t_i + (wdw.1 : WithTop ℚ)
      if s_tp1_j < (r.getD j defSlot).1 then
        r.set j (s_tp1_j, dW_t_i + (wdw.2 : WithBot ℚ), Par.node i)
      else r) row

/-- One step `t → t+1` of the forward dynamic program: the body of the
source loop `for t in range(n_layer - 1)`, starting from the freshly
appended row of `np.inf` / `-np.inf` / `np.nan` entries. -/
def relaxLayer (wf : WeightFun) (cd : List CandLayer) (exclude : Bool)
    (cutoff : Option ℕ) (t : ℕ) (prev : List Slot) : List Slot :=
  let n_t := cutMin (cd.getD t emptyLayer).iokrscores.length cutoff
  let n_tp1 := cutMin (cd.getD (t+1) emptyLayer).iokrscores.length cutoff
  (List.range n_t).foldl (fun row i =>
    if exclude && (cd.getD t emptyLayer).is_blocked.getD i false then row
    else relaxInner wf cd exclude t i ((prev.getD i defSlot).1)
      ((prev.getD i defSlot).2.1) n_tp1 row)
    (List.replicate n_tp1 defSlot)

/-- Row `t` of the zipped DP tables (`S_path`, `dW_path`, `parents`).  Row 0
is the initialisation `S_path = [-score for score in layer 0]` over the
full first layer (no cutoff is applied there, as in the source).  Each
later row depends only on its predecessor, so the source's appending loop
is modelled by this recursion. -/
def dpRow (wf : WeightFun) (cd : List CandLayer) (exclude : Bool)
    (cutoff : Option ℕ) : ℕ → List Slot
  | 0 => (cd.getD 0 emptyLayer).iokrscores.map
      (fun s => (((-s : ℚ) : WithTop ℚ), (0 : WithBot ℚ), Par.root))
  | t + 1 => relaxLayer wf cd exclude cutoff t (dpRow wf cd exclude cutoff t)

/-- Minimum of a cost row. -/
def rowMin (l : List (WithTop ℚ)) : WithTop ℚ := l.foldl min ⊤

/-- Model of `np.argmin`: the first index attaining the minimum of the
list (`0` on the empty list, where NumPy raises instead). -/
def argminW (l : List (WithTop ℚ)) : ℕ := l.findIdx (fun x => decide (x = rowMin l))

/-- Backtracking along the parent pointers from node `cur` of layer `t`.
The source collects the reversed node list and reverses it at the end;
this recursion returns the forward path directly.  A `np.nan` parent (an
`unset` slot, over which Python's `parents[t][nan]` lookup would raise) is
modelled by `none`. -/
def backtrack (wf : WeightFun) (cd : List CandLayer) (exclude : Bool)
    (cutoff : Option ℕ) : ℕ → ℕ → Option (List ℕ)
  | 0, cur =>
    match ((dpRow wf cd exclude cutoff 0).getD cur defSlot).2.2 with
    | Par.root => some [cur]
    | _ => none
  | t + 1, cur =>
    match ((dpRow wf cd exclude cutoff (t+1)).getD cur defSlot).2.2 with
    | Par.root => some [cur]
    | Par.unset => none
    | Par.node i => (backtrack wf cd exclude cutoff t i).map (fun p => p ++ [cur])

/-- Shallow embedding of `shortest_path_exclude_candidates`: the forward
dynamic program over all layers, selection of the terminal node by
`np.argmin` over the last cost row, and backtracking.  `none` models an
exception (failed `check_input` assertion or a backtracking crash). -/
def shortest_path_exclude_candidates (cd : List CandLayer) (wf : WeightFun)
    (cutoff : Option ℕ) (check_input exclude : Bool) : Option (List ℕ × WithTop ℚ) :=
  if check_input && !(checkInputOk exclude cd) then none
  else
    let lastRow := dpRow wf cd exclude cutoff (cd.length - 1)
    let j0 := argminW (lastRow.map (fun s => s.1))
    let cost := (lastRow.getD j0 defSlot).1
    (backtrack wf cd exclude cutoff (cd.length - 1) j0).map (fun p => (p, cost))

/-- Shallow embedding of `shortest_path`: its body is that of
`shortest_path_exclude_candidates` with every `exclude_blocked_candidates`
branch removed, i.e. the same dynamic program with `exclude = false`. -/
def shortest_path (cd : List CandLayer) (wf : WeightFun) (cutoff : Option ℕ)
    (check_input : Bool) : Option (List ℕ × WithTop ℚ) :=
  shortest_path_exclude_candidates cd wf cutoff check_input false

/-- Result record of `perform_reranking_of_candidates`. -/
structure RerankResult where
  topk_accs : List ℚ
  paths : List (List ℕ)
  lengths : List (WithTop ℚ)
  deriving DecidableEq, Repr

/-- The helper `_t_map`: position `t` of the current sub-sequence mapped to
its original layer index, `np.arange(0, len(abl))[~abl][t]`. -/
def tMap (abl : List Bool) (t : ℕ) : ℕ :=
  ((List.range abl.length).filter (fun u => !(abl.getD u true))).getD t 0

/-- The per-iteration bookkeeping loop `for t, cand in enumerate(path)`:
counts correct identifications and blocks each chosen candidate in the
layer `_t_map(t, all_cand_blocked)`.  The source does both in one ascending
pass; blocking never touches `is_true_identification`, so the count and the
updates are accumulated together here. -/
def applyPath (abl : List Bool) : ℕ → List ℕ → List CandLayer → ℕ × List CandLayer
  | _, [], layers => (0, layers)
  | t, cand :: rest, layers =>
    let orig := tMap abl t
    let layer := layers.getD orig emptyLayer
    let res := applyPath abl (t+1) rest
      (layers.set orig { layer with is_blocked := layer.is_blocked.set cand true })
    ((if layer.is_true_identification.getD cand false then 1 else 0) + res.1, res.2)

/-- Model of `np.cumsum` on the per-iteration correct counts. -/
def cumsumAux : ℕ → List ℕ → List ℕ
  | _, [] => []
  | acc, x :: xs => (acc + x) :: cumsumAux (acc + x) xs

def cumsum (l : List ℕ) : List ℕ := cumsumAux 0 l

/-- The main loop `for k in range(topk)` of
`perform_reranking_of_candidates`: stop when every layer is fully blocked;
otherwise solve on the sub-sequence of non-exhausted layers with blocking
and validation on, check `len(path) == np.sum(~all_cand_blocked)`, count
and block along the path, and recompute the exhaustion flags.  `none`
models a raised assertion. -/
def rerankLoop (wf : WeightFun) (cutoff : Option ℕ) :
    ℕ → List Bool → List CandLayer → List ℕ → List (List ℕ) → List (WithTop ℚ) →
    Option (List ℕ × List (List ℕ) × List (WithTop ℚ) × List CandLayer)
  | 0, _, layers, ncs, ps, ls => some (ncs, ps, ls, layers)
  | fuel + 1, abl, layers, ncs, ps, ls =>
    if abl.all (fun b => b) then some (ncs, ps, ls, layers)
    else
      let sub := (layers.zip abl).filterMap (fun p => if p.2 then none else some p.1)
      match shortest_path_exclude_candidates sub wf cutoff true true with
      | none => none
      | some pl =>
        if pl.1.length = (abl.filter (fun b => !b)).length then
          let upd := applyPath abl 0 pl.1 layers
          let abl1 := upd.2.map (fun l => l.is_blocked.all (fun b => b))
          rerankLoop wf cutoff fuel abl1 upd.2 (ncs ++ [upd.1]) (ps ++ [pl.1]) (ls ++ [pl.2])
        else none

/-- Initialisation loop of `perform_reranking_of_candidates`: install a
fresh all-`False` `is_blocked` vector (`np.zeros(n_cand_t, dtype="bool")`)
in every layer of the owned copy. -/
def resetBlocked (cd : List CandLayer) : List CandLayer :=
  cd.map (fun l => { l with is_blocked := List.replicate l.iokrscores.length false })

/-- Shallow embedding of `perform_reranking_of_candidates`.  The deep copy
`cand_data_c = copy.deepcopy(cand_data)` is a value copy here; a fresh
all-false `is_blocked` vector is then installed in every layer, and the
loop mutations are threaded through `rerankLoop`.  The `weight_function is
None` check is vacuous in this embedding (a weight function is always
supplied).  Returns the cumulative top-k accuracies, the extracted paths
and their costs. -/
def perform_reranking_of_candidates (cd : List CandLayer) (wf : WeightFun)
    (topk : ℕ) (cutoff : Option ℕ) : Option RerankResult :=
  (rerankLoop wf cutoff topk (List.replicate (resetBlocked cd).length false)
      (resetBlocked cd) [] [] []).map
    (fun r => ⟨(cumsum r.1).map (fun c : ℕ => (c : ℚ) / ((resetBlocked cd).length : ℚ) * 100),
      r.2.1, r.2.2.1⟩)

/-- The accuracy sequence of a reranking result (empty when the call
raised). -/
def accsOf (o : Option RerankResult) : List ℚ := (o.map (fun r => r.topk_accs)).getD []

/-- Caller-observable form of `perform_reranking_of_candidates`: the
function works on `copy.deepcopy(cand_data)` (source line entering the
function), so every `is_blocked` mutation of the loop happens on the owned
copy and the caller's layer list is handed back unchanged. -/
def perform_reranking_with_caller (cd : List CandLayer) (wf : WeightFun)
    (topk : ℕ) (cutoff : Option ℕ) : Option RerankResult × List CandLayer :=
  (perform_reranking_of_candidates cd wf topk cutoff, cd)

/-- Candidate width of layer `t`. -/
def widthAt (cd : List CandLayer) (t : ℕ) : ℕ := (cd.getD t emptyLayer).iokrscores.length

/-- Number of retained candidates of layer `t` under the cutoff. -/
def retainedAt (cd : List CandLayer) (cutoff : Option ℕ) (t : ℕ) : ℕ :=
  cutMin (widthAt cd t) cutoff

/-- Blocking flag of candidate `i` of layer `t`. -/
def blockedAt (cd : List CandLayer) (t i : ℕ) : Bool :=
  (cd.getD t emptyLayer).is_blocked.getD i false

/-- Eligibility of candidate `i` of layer `t` during relaxation: skipped
exactly when blocked candidates are excluded and it is blocked. -/
def eligAt (exclude : Bool) (cd : List CandLayer) (t i : ℕ) : Bool :=
  !(exclude && blockedAt cd t i)

/-- Accumulated cost `S_path[t][j]`. -/
def costAt (wf : WeightFun) (cd : List CandLayer) (exclude : Bool)
    (cutoff : Option ℕ) (t j : ℕ) : WithTop ℚ :=
  ((dpRow wf cd exclude cutoff t).getD j defSlot).1

/-- Parent pointer `parents[t][j]`. -/
def parAt (wf : WeightFun) (cd : List CandLayer) (exclude : Bool)
    (cutoff : Option ℕ) (t j : ℕ) : Par :=
  ((dpRow wf cd exclude cutoff t).getD j defSlot).2.2

/-- Cumulative cost of reaching `(t+1, j)` through head candidate `(t, i)`:
the quantity the relaxation compares against `S_path[t+1][j]`. -/
def edgeVal (wf : WeightFun) (cd : List CandLayer) (exclude : Bool)
    (cutoff : Option ℕ) (t j i : ℕ) : WithTop ℚ :=
  costAt wf cd exclude cutoff t i + ((wf cd (t, i) (t+1, j)).1 : WithTop ℚ)

/-- Index `i0` is the lowest index attaining the minimum of `val` over the
eligible indices below `m`: first-seen minimum kept by the strict `<`
relaxation scanning ascending. -/
def IsFirstMin (elig : ℕ → Bool) (val : ℕ → WithTop ℚ) (m i0 : ℕ) : Prop :=
  i0 < m ∧ elig i0 = true ∧ (∀ i < m, elig i = true → val i0 ≤ val i) ∧
    (∀ i < i0, elig i = true → val i0 < val i)

/-- The combined effect of the two relaxation loops on one fixed tail slot
`j`: scanning the eligible head candidates `i` ascending, a strictly
cheaper candidate cost overwrites the slot, so the slot ends at the
first-seen minimum.  `val i` is the candidate cost through head `i` and
`dwv i` the corresponding accumulated order delta. -/
def slotFold (elig : ℕ → Bool) (val : ℕ → WithTop ℚ) (dwv : ℕ → WithBot ℚ) (m : ℕ) : Slot :=
  (List.range m).foldl
    (fun s i => if elig i then (if val i < s.1 then (val i, dwv i, Par.node i) else s) else s)
    defSlot

/-- Spec-side (claim C3, steps 1-2): the raw order delta, `0` when the two
retention times are within `epsilon_rt`, else the difference of the
predicted order values. -/
def order_delta_spec (cfg : WCfg) (cd : List CandLayer) (t i j : ℕ) : ℚ :=
  if leOptQ |(cd.getD t emptyLayer).rt_cand_list -
      (cd.getD (t+1) emptyLayer).rt_cand_list| cfg.epsilon_rt then 0
  else (cd.getD t emptyLayer).wtx.getD i 0 - (cd.getD (t+1) emptyLayer).wtx.getD j 0

/-- Spec-side (claim C3, step 3): the order delta after the optional
replacement by its sign. -/
def signed_delta_spec (cfg : WCfg) (cd : List CandLayer) (t i j : ℕ) : ℚ :=
  if cfg.use_sign then qsign (order_delta_spec cfg cd t i j) else order_delta_spec cfg cd t i j

/-- Spec-side (claim C3, steps 4-5): `penalty = max(0, order_delta)`,
optionally log-transformed as `ln(penalty + 1)`. -/
def penalty_spec (lg : ℚ → ℚ) (cfg : WCfg) (cd : List CandLayer) (t i j : ℕ) : ℚ :=
  if cfg.use_log then lg (max 0 (signed_delta_spec cfg cd t i j) + 1)
  else max 0 (signed_delta_spec cfg cd t i j)

/-- Spec-side (claim C4): `np.argmax` over a score list, the first index
whose score is maximal. -/
def argmaxQ (l : List ℚ) : ℕ := l.findIdx (fun x => decide (∀ y ∈ l, y ≤ x))

/-- Spec-side (claim C4): the per-layer independent top-score candidate,
greedy argmax per layer. -/
def greedyPath (cd : List CandLayer) : List ℕ := cd.map (fun l => argmaxQ l.iokrscores)

/-- Layer 0 of the concrete scenario of spec section 8. -/
def scenarioLayer0 : CandLayer := ⟨[9/10, 1/2], [2, 1], 1, [true, false], [false, false]⟩

/-- Layer 1 of the concrete scenario of spec section 8. -/
def scenarioLayer1 : CandLayer := ⟨[4/5, 3/5], [3/2, 9/10], 5, [true, false], [false, false]⟩

/-- Configuration of the concrete scenario: `D=1, epsilon_rt=0.1,
use_sign=false, use_log=false`. -/
def scenarioCfg : WCfg := ⟨1, false, some (1/10), false⟩

/-- A single layer whose top candidate is blocked but whose second
candidate is not. -/
def blockedSingleLayer : CandLayer := ⟨[9/10, 1/2], [2, 1], 1, [true, false], [true, false]⟩

/-- A layer with descending scores but no true candidate at all. -/
def noTrueLayer : CandLayer := ⟨[9/10, 1/2], [2, 1], 1, [false, false], [false, false]⟩

/-- Elementwise reading of a mapped list below its length. -/
theorem getD_map_of_lt {α β : Type} (f : α → β) :
    ∀ (l : List α) (i : ℕ), i < l.length → ∀ (d : β) (d0 : α),
      (l.map f).getD i d = f (l.getD i d0)
  | [], i, h => absurd h (by simp)
  | x :: xs, 0, _ => fun _ _ => rfl
  | x :: xs, i + 1, h => fun d d0 =>
    getD_map_of_lt f xs i (by simpa using h) d d0

theorem cumsumAux_length : ∀ (a : ℕ) (l : List ℕ), (cumsumAux a l).length = l.length
  | _, [] => rfl
  | a, x :: xs => by simp [cumsumAux, cumsumAux_length (a + x) xs]

/-- Partial sums of natural numbers are monotone step by step. -/
theorem cumsumAux_le : ∀ (l : List ℕ) (a i : ℕ), i + 1 < (cumsumAux a l).length →
    (cumsumAux a l).getD i 0 ≤ (cumsumAux a l).getD (i + 1) 0
  | [], a, i, h => absurd h (by simp [cumsumAux])
  | x :: xs, a, 0, h => by
    cases xs with
    | nil => simp [cumsumAux] at h
    | cons y ys => simp [cumsumAux, Nat.le_add_right]
  | x :: xs, a, i + 1, h => by
    have := cumsumAux_le xs (a + x) i (by simpa [cumsumAux] using h)
    simpa [cumsumAux] using this

/-- Scaling a monotone pair of counts into percentages keeps the order. -/
theorem acc_div_mono {a b : ℕ} (L : ℚ) (hL : 0 ≤ L) (h : a ≤ b) :
    (a : ℚ) / L * 100 ≤ (b : ℚ) / L * 100 := by
  have h1 : (a : ℚ) ≤ (b : ℚ) := by exact_mod_cast h
  have h2 : (a : ℚ) / L ≤ (b : ℚ) / L := by
    rw [div_eq_mul_inv, div_eq_mul_inv]
    exact mul_le_mul_of_nonneg_right h1 (inv_nonneg.mpr hL)
  exact mul_le_mul_of_nonneg_right h2 (by norm_num)

/-- C1 (counterexample): on the concrete 2-layer scenario (layer 0
`scores=[0.9,0.5]`, `order_values=[2.0,1.0]`, `rt=1.0`; layer 1
`scores=[0.8,0.6]`, `order_values=[1.5,0.9]`, `rt=5.0`; `D=1,
epsilon_rt=0.1, use_sign=false, use_log=false`), `shortest_path` with
`_weight_func_max` does NOT return `path=[0,0]` with `cost=-1.2`. -/
theorem c1_scenario_counterexample :
    shortest_path [scenarioLayer0, scenarioLayer1]
        (weight_func_max (fun _ => 0) scenarioCfg) none false ≠
      some ([0, 0], ((-6/5 : ℚ) : WithTop ℚ)) :=
  of_decide_eq_true (by with_unfolding_all rfl)

/-- C1 (amended): on the concrete 2-layer scenario the solver returns
`path=[1,0]` with `cost=-1.3`: the edge from layer-0 candidate 1 to
layer-1 candidate 0 is order-consistent (delta `1.0-1.5<0`, penalty `0`,
weight `-0.8`), giving total `-0.5-0.8=-1.3 < -1.2`, which the spec's
worked example overlooked. -/
theorem c1_scenario_amended :
    shortest_path [scenarioLayer0, scenarioLayer1]
        (weight_func_max (fun _ => 0) scenarioCfg) none false =
      some ([1, 0], ((-13/10 : ℚ) : WithTop ℚ)) :=
  of_decide_eq_true (by with_unfolding_all rfl)

/-- C2 (counterexample): a single valid layer (descending scores, blocked
vector of matching length, a non-blocked retained candidate at index 1)
with its top candidate blocked: `shortest_path_exclude_candidates` with
`exclude_blocked_candidates=true` still returns `path=[0]`, a blocked
index, so the returned path is not always non-blocked. -/
theorem c2_counterexample :
    checkInputOk true [blockedSingleLayer] = true ∧
    blockedSingleLayer.is_blocked.getD 1 false = false ∧
    shortest_path_exclude_candidates [blockedSingleLayer]
        (weight_func_max (fun _ => 0) scenarioCfg) none true true =
      some ([0], ((-9/10 : ℚ) : WithTop ℚ)) ∧
    blockedSingleLayer.is_blocked.getD 0 false = true :=
  of_decide_eq_true (by with_unfolding_all rfl)

/-- C3: for every pair of adjacent layers `t, t+1` and candidates `i, j`,
`_weight_func_max` returns the pair of the edge weight
`-scores[t+1][j] + D * penalty` — where the order delta is `0` when the
retention times are within `epsilon_rt` and the difference of order
values otherwise, optionally replaced by its sign, and the penalty is
`max(0, order_delta)` optionally transformed to `ln(penalty + 1)` — and
of the (sign-replaced) order delta. -/
theorem c3_weight_function (lg : ℚ → ℚ) (cfg : WCfg) (cd : List CandLayer) (t i j : ℕ) :
    weight_func_max lg cfg cd (t, i) (t + 1, j) =
      (- (cd.getD (t+1) emptyLayer).iokrscores.getD j 0 + cfg.D * penalty_spec lg cfg cd t i j,
       signed_delta_spec cfg cd t i j) := by
  simp only [weight_func_max, penalty_spec, signed_delta_spec, order_delta_spec]

/-- C5 (counterexample): a single layer of uniform width `W = 2` and
`k = 3 > W`: `perform_reranking_of_candidates` returns 3 entries, not
`W = 2` — with one layer the relaxation loop never runs, the blocked top
candidate keeps being re-selected and the layer never exhausts. -/
theorem c5_counterexample :
    scenarioLayer0.iokrscores.length = 2 ∧
    (perform_reranking_of_candidates [scenarioLayer0]
        (weight_func_max (fun _ => 0) scenarioCfg) 3 none).map
      (fun r => (r.topk_accs.length, r.paths.length, r.lengths.length)) = some (3, 3, 3) :=
  of_decide_eq_true (by with_unfolding_all rfl)

/-- C6: for every input and every adjacent pair of entries of the returned
cumulative accuracy sequence of `perform_reranking_of_candidates`, the
sequence is non-decreasing: each entry is a partial sum of per-iteration
correct counts scaled by `100 / (number of layers)`. -/
theorem c6_monotone_topk_accuracy (cd : List CandLayer) (wf : WeightFun) (k : ℕ)
    (cutoff : Option ℕ) (m : ℕ)
    (hm : m + 1 < (accsOf (perform_reranking_of_candidates cd wf k cutoff)).length) :
    (accsOf (perform_reranking_of_candidates cd wf k cutoff)).getD m 0 ≤
      (accsOf (perform_reranking_of_candidates cd wf k cutoff)).getD (m + 1) 0 := by
  cases h : rerankLoop wf cutoff k (List.replicate (resetBlocked cd).length false)
      (resetBlocked cd) [] [] [] with
  | none => simp [accsOf, perform_reranking_of_candidates, h] at hm
  | some r =>
    simp only [accsOf, perform_reranking_of_candidates, h, Option.map_some',
      Option.getD_some, cumsum] at hm ⊢
    rw [List.length_map] at hm
    have hm' : m < (cumsumAux 0 r.1).length := Nat.lt_of_succ_lt hm
    rw [getD_map_of_lt _ _ m hm' 0 0, getD_map_of_lt _ _ (m+1) hm 0 0]
    exact acc_div_mono _ (by positivity) (cumsumAux_le r.1 0 m hm)

/-- Witness for C6: on a concrete one-layer run with three iterations the
first two cumulative accuracies are ordered. -/
theorem c6_monotone_topk_accuracy_witness :
    (accsOf (perform_reranking_of_candidates [scenarioLayer0]
        (weight_func_max (fun _ => 0) scenarioCfg) 3 none)).getD 0 0 ≤
      (accsOf (perform_reranking_of_candidates [scenarioLayer0]
        (weight_func_max (fun _ => 0) scenarioCfg) 3 none)).getD 1 0 :=
  c6_monotone_topk_accuracy [scenarioLayer0] (weight_func_max (fun _ => 0) scenarioCfg)
    3 none 0 (of_decide_eq_true (by with_unfolding_all rfl))

/-- C8 (counterexample): with validation enabled, a layer sequence whose
layer has zero `true` candidates passes the `check_input` assertions and
the call returns a normal result — no PreconditionViolation is raised for
the true-candidate count. -/
theorem c8_counterexample :
    checkInputOk true [noTrueLayer] = true ∧
    noTrueLayer.is_true_identification.count true = 0 ∧
    shortest_path_exclude_candidates [noTrueLayer]
        (weight_func_max (fun _ => 0) scenarioCfg) none true true =
      some ([0], ((-9/10 : ℚ) : WithTop ℚ)) :=
  of_decide_eq_true (by with_unfolding_all rfl)

/-- The validation block reads only scores, retention times and blocked
vectors of the layers, never `is_true_identification`. -/
theorem checkLayers_ignores_is_true (exclude : Bool) (f : CandLayer → List Bool)
    (cd : List CandLayer) : ∀ rt : WithBot ℚ,
    checkLayers exclude rt (cd.map (fun l => { l with is_true_identification := f l })) =
      checkLayers exclude rt cd := by
  induction cd with
  | nil => intro rt; rfl
  | cons l rest ih => intro rt; simp only [List.map_cons, checkLayers, ih]

/-- C8 (amended): validation rejects unsorted scores, non-monotone
retention times and mismatched blocked-vector lengths, but does NOT check
the true-candidate count: the outcome of `check_input` is invariant under
arbitrary replacement of every layer's `is_true_identification` vector. -/
theorem c8_validation_ignores_true_count (exclude : Bool) (f : CandLayer → List Bool)
    (cd : List CandLayer) :
    checkInputOk exclude (cd.map (fun l => { l with is_true_identification := f l })) =
      checkInputOk exclude cd :=
  checkLayers_ignores_is_true exclude f cd ⊥

/-- C9: `perform_reranking_of_candidates` operates on a deep copy taken at
call entry, so the caller-visible layer list is unchanged after the call
and a repeated reranking call against the same source layers returns the
same result as the first, independent of any prior call. -/
theorem c9_caller_layers_unchanged (cd : List CandLayer) (wf : WeightFun) (topk : ℕ)
    (cutoff : Option ℕ) :
    (perform_reranking_with_caller cd wf topk cutoff).2 = cd ∧
      perform_reranking_with_caller (perform_reranking_with_caller cd wf topk cutoff).2
          wf topk cutoff =
        perform_reranking_with_caller cd wf topk cutoff :=
  ⟨rfl, rfl⟩

theorem getD_set_ne {α : Type} : ∀ (l : List α) (i j : ℕ) (a d : α), j ≠ i →
    (l.set i a).getD j d = l.getD j d
  | [], _, _, _, _, _ => rfl
  | x :: xs, 0, 0, a, d, h => absurd rfl h
  | x :: xs, 0, j + 1, a, d, _ => rfl
  | x :: xs, i + 1, 0, a, d, _ => rfl
  | x :: xs, i + 1, j + 1, a, d, h =>
    getD_set_ne xs i j a d (fun hc => h (by rw [hc]))

theorem getD_set_self {α : Type} : ∀ (l : List α) (i : ℕ) (a d : α), i < l.length →
    (l.set i a).getD i d = a
  | [], i, a, d, h => absurd h (by simp)
  | x :: xs, 0, a, d, _ => rfl
  | x :: xs, i + 1, a, d, h => getD_set_self xs i a d (by simpa using h)

theorem foldl_congr_fun {α β : Type} (f g : β → α → β) (h : ∀ s a, f s a = g s a) :
    ∀ (l : List α) (s : β), l.foldl f s = l.foldl g s
  | [], _ => rfl
  | a :: as, s => by rw [List.foldl_cons, List.foldl_cons, h, foldl_congr_fun f g h as]

theorem foldl_length_inv {α : Type} (f : List Slot → α → List Slot)
    (h : ∀ r a, (f r a).length = r.length) :
    ∀ (l : List α) (r : List Slot), (l.foldl f r).length = r.length
  | [], _ => rfl
  | a :: as, r => by rw [List.foldl_cons, foldl_length_inv f h as (f r a), h]

theorem foldl_getD_not_mem (step : List Slot → ℕ → List Slot)
    (hoff : ∀ r jm j2, j2 ≠ jm → (step r jm).getD j2 defSlot = r.getD j2 defSlot) :
    ∀ (js : List ℕ) (r : List Slot) (j : ℕ), j ∉ js →
      (js.foldl step r).getD j defSlot = r.getD j defSlot
  | [], _, _, _ => rfl
  | j0 :: js, r, j, h => by
    rw [List.foldl_cons,
      foldl_getD_not_mem step hoff js (step r j0) j (fun hc => h (List.mem_cons_of_mem j0 hc)),
      hoff r j0 j (fun hc => h (hc ▸ List.mem_cons_self j0 js))]

theorem foldl_getD_mem (step : List Slot → ℕ → List Slot) (G : ℕ → Slot → Slot)
    (hoff : ∀ r jm j2, j2 ≠ jm → (step r jm).getD j2 defSlot = r.getD j2 defSlot)
    (hon : ∀ r jm, jm < r.length → (step r jm).getD jm defSlot = G jm (r.getD jm defSlot))
    (hlen : ∀ r jm, (step r jm).length = r.length) :
    ∀ (js : List ℕ) (r : List Slot) (j : ℕ), js.Nodup → j ∈ js → j < r.length →
      (js.foldl step r).getD j defSlot = G j (r.getD j defSlot)
  | [], _, _, _, hmem, _ => absurd hmem (by simp)
  | j0 :: js, r, j, hnd, hmem, hlt => by
    rw [List.foldl_cons]
    rcases List.mem_cons.1 hmem with heq | hmem2
    · subst heq
      have hnotin : j ∉ js := (List.nodup_cons.1 hnd).1
      rw [foldl_getD_not_mem step hoff js (step r j) j hnotin, hon r j hlt]
    · have hne : j ≠ j0 := by
        intro hc
        subst hc
        exact (List.nodup_cons.1 hnd).1 hmem2
      rw [foldl_getD_mem step G hoff hon hlen js (step r j0) j (List.nodup_cons.1 hnd).2 hmem2
          (by rw [hlen]; exact hlt)]
      rw [hoff r j0 j hne]

theorem getD_replicate {α : Type} (a d : α) : ∀ (n j : ℕ), j < n →
    (List.replicate n a).getD j d = a
  | 0, j, h => absurd h (by simp)
  | n + 1, 0, _ => rfl
  | n + 1, j + 1, h => getD_replicate a d n j (by simpa using h)

theorem foldl_id {α β : Type} (f : β → α → β) (h : ∀ s a, f s a = s) :
    ∀ (l : List α) (s : β), l.foldl f s = s
  | [], _ => rfl
  | a :: as, s => by rw [List.foldl_cons, h, foldl_id f h as]

theorem relaxInner_length (wf : WeightFun) (cd : List CandLayer) (exclude : Bool)
    (t i : ℕ) (sti : WithTop ℚ) (dwti : WithBot ℚ) (n : ℕ) (row : List Slot) :
    (relaxInner wf cd exclude t i sti dwti n row).length = row.length := by
  unfold relaxInner
  apply foldl_length_inv
  intro r j
  dsimp only
  split
  · rfl
  · split
    · exact List.length_set r j _
    · rfl

theorem relaxInner_getD_lt (wf : WeightFun) (cd : List CandLayer) (exclude : Bool)
    (t i : ℕ) (sti : WithTop ℚ) (dwti : WithBot ℚ) (n : ℕ) (row : List Slot) (j : ℕ)
    (hjn : j < n) (hjr : j < row.length) :
    (relaxInner wf cd exclude t i sti dwti n row).getD j defSlot =
      if exclude && (cd.getD (t+1) emptyLayer).is_blocked.getD j false then row.getD j defSlot
      else if sti + ((wf cd (t, i) (t+1, j)).1 : WithTop ℚ) < (row.getD j defSlot).1 then
        (sti + ((wf cd (t, i) (t+1, j)).1 : WithTop ℚ),
         dwti + ((wf cd (t, i) (t+1, j)).2 : WithBot ℚ), Par.node i)
      else row.getD j defSlot := by
  unfold relaxInner
  apply foldl_getD_mem _
    (fun jm s =>
      if exclude && (cd.getD (t+1) emptyLayer).is_blocked.getD jm false then s
      else if sti + ((wf cd (t, i) (t+1, jm)).1 : WithTop ℚ) < s.1 then
        (sti + ((wf cd (t, i) (t+1, jm)).1 : WithTop ℚ),
         dwti + ((wf cd (t, i) (t+1, jm)).2 : WithBot ℚ), Par.node i)
      else s)
  · intro r jm j2 hne
    dsimp only
    split
    · rfl
    · split
      · exact getD_set_ne r jm j2 _ defSlot hne
      · rfl
  · intro r jm hlt
    dsimp only
    split
    · rfl
    · split
      · exact getD_set_self r jm _ defSlot hlt
      · rfl
  · intro r jm
    dsimp only
    split
    · rfl
    · split
      · exact List.length_set r jm _
      · rfl
  · exact List.nodup_range n
  · exact List.mem_range.2 hjn
  · exact hjr

theorem relaxInner_getD_ge (wf : WeightFun) (cd : List CandLayer) (exclude : Bool)
    (t i : ℕ) (sti : WithTop ℚ) (dwti : WithBot ℚ) (n : ℕ) (row : List Slot) (j : ℕ)
    (hjn : ¬ j < n) :
    (relaxInner wf cd exclude t i sti dwti n row).getD j defSlot = row.getD j defSlot := by
  unfold relaxInner
  apply foldl_getD_not_mem
  · intro r jm j2 hne
    dsimp only
    split
    · rfl
    · split
      · exact getD_set_ne r jm j2 _ defSlot hne
      · rfl
  · intro hmem
    exact hjn (List.mem_range.1 hmem)

theorem widthAt_def (cd : List CandLayer) (t : ℕ) :
    (cd.getD t emptyLayer).iokrscores.length = widthAt cd t := rfl

theorem foldl_pointwise (F : List Slot → ℕ → List Slot) (j : ℕ) (Φ : ℕ → Slot → Slot)
    (hlen : ∀ r i, (F r i).length = r.length)
    (hpt : ∀ r i, j < r.length → (F r i).getD j defSlot = Φ i (r.getD j defSlot)) :
    ∀ (l : List ℕ) (r : List Slot), j < r.length →
      (l.foldl F r).getD j defSlot = l.foldl (fun s i => Φ i s) (r.getD j defSlot)
  | [], _, _ => rfl
  | i0 :: l, r, hj => by
    rw [List.foldl_cons, List.foldl_cons,
      foldl_pointwise F j Φ hlen hpt l (F r i0) (by rw [hlen]; exact hj), hpt r i0 hj]

theorem relaxLayer_length (wf : WeightFun) (cd : List CandLayer) (exclude : Bool)
    (cutoff : Option ℕ) (t : ℕ) (prev : List Slot) :
    (relaxLayer wf cd exclude cutoff t prev).length = cutMin (widthAt cd (t+1)) cutoff := by
  unfold relaxLayer
  rw [foldl_length_inv]
  · exact List.length_replicate _ _
  · intro r i
    dsimp only
    split
    · rfl
    · exact relaxInner_length wf cd exclude t i _ _ _ r

theorem relaxLayer_slot (wf : WeightFun) (cd : List CandLayer) (exclude : Bool)
    (cutoff : Option ℕ) (t : ℕ) (prev : List Slot) (j : ℕ)
    (hj : j < cutMin (widthAt cd (t+1)) cutoff) :
    (relaxLayer wf cd exclude cutoff t prev).getD j defSlot =
      if eligAt exclude cd (t+1) j then
        slotFold (fun i => eligAt exclude cd t i)
          (fun i => (prev.getD i defSlot).1 + ((wf cd (t, i) (t+1, j)).1 : WithTop ℚ))
          (fun i => (prev.getD i defSlot).2.1 + ((wf cd (t, i) (t+1, j)).2 : WithBot ℚ))
          (cutMin (widthAt cd t) cutoff)
      else defSlot := by
  simp only [relaxLayer, widthAt_def]
  have hrep : j < (List.replicate (cutMin (widthAt cd (t+1)) cutoff) defSlot).length := by
    simpa using hj
  rw [foldl_pointwise _ j
    (fun i s =>
      if exclude && (cd.getD t emptyLayer).is_blocked.getD i false then s
      else
        if exclude && (cd.getD (t+1) emptyLayer).is_blocked.getD j false then s
        else if (prev.getD i defSlot).1 + ((wf cd (t, i) (t+1, j)).1 : WithTop ℚ) < s.1 then
          ((prev.getD i defSlot).1 + ((wf cd (t, i) (t+1, j)).1 : WithTop ℚ),
           (prev.getD i defSlot).2.1 + ((wf cd (t, i) (t+1, j)).2 : WithBot ℚ), Par.node i)
        else s)
    _ _ (List.range (cutMin (widthAt cd t) cutoff)) _ hrep]
  · rw [getD_replicate defSlot defSlot _ j hj]
    by_cases hb : (exclude && (cd.getD (t+1) emptyLayer).is_blocked.getD j false) = true
    · have helig : eligAt exclude cd (t+1) j = false := by
        simp only [eligAt, blockedAt, hb, Bool.not_true]
      rw [helig]
      simp only [Bool.false_eq_true, if_false]
      apply foldl_id
      intro s i
      dsimp only
      by_cases hsk : (exclude && (cd.getD t emptyLayer).is_blocked.getD i false) = true
      · rw [if_pos hsk]
      · rw [if_neg hsk, if_pos hb]
    · have helig : eligAt exclude cd (t+1) j = true := by
        simp only [eligAt, blockedAt, Bool.eq_false_iff.mpr hb, Bool.not_false]
      simp only [helig, if_true]
      unfold slotFold
      apply foldl_congr_fun
      intro s i
      dsimp only
      by_cases hsk : (exclude && (cd.getD t emptyLayer).is_blocked.getD i false) = true
      · have he : eligAt exclude cd t i = false := by
          simp only [eligAt, blockedAt, hsk, Bool.not_true]
        rw [if_pos hsk, he]
        simp
      · have he : eligAt exclude cd t i = true := by
          simp only [eligAt, blockedAt, Bool.eq_false_iff.mpr hsk, Bool.not_false]
        rw [if_neg hsk, if_neg hb, he]
        simp
  · intro r i
    dsimp only
    split
    · rfl
    · exact relaxInner_length wf cd exclude t i _ _ _ r
  · intro r i hjr
    dsimp only
    split
    · rfl
    · exact relaxInner_getD_lt wf cd exclude t i _ _ _ r j hj hjr

theorem slotFold_succ (elig : ℕ → Bool) (val : ℕ → WithTop ℚ) (dwv : ℕ → WithBot ℚ) (m : ℕ) :
    slotFold elig val dwv (m + 1) =
      if elig m then
        (if val m < (slotFold elig val dwv m).1 then (val m, dwv m, Par.node m)
         else slotFold elig val dwv m)
      else slotFold elig val dwv m := by
  unfold slotFold
  rw [List.range_succ, List.foldl_append, List.foldl_cons, List.foldl_nil]

theorem slotFold_spec (elig : ℕ → Bool) (val : ℕ → WithTop ℚ) (dwv : ℕ → WithBot ℚ) :
    ∀ m : ℕ,
      (slotFold elig val dwv m = defSlot ∧ ∀ i < m, elig i = true → val i = ⊤) ∨
      (∃ i0, IsFirstMin elig val m i0 ∧ val i0 < ⊤ ∧
        slotFold elig val dwv m = (val i0, dwv i0, Par.node i0))
  | 0 => Or.inl ⟨rfl, fun i hi => absurd hi (by omega)⟩
  | m + 1 => by
    rw [slotFold_succ]
    rcases slotFold_spec elig val dwv m with ⟨hs, hall⟩ | ⟨i0, ⟨hi0m, he0, hmin, hstrict⟩, hlt0, hs⟩
    · by_cases helig : elig m = true
      · rw [if_pos helig, hs]
        by_cases hv : val m < (defSlot : Slot).1
        · rw [if_pos hv]
          refine Or.inr ⟨m, ⟨Nat.lt_succ_self m, helig, ?_, ?_⟩, hv, rfl⟩
          · intro i hi hei
            rcases Nat.lt_succ_iff_lt_or_eq.1 hi with hlt | heq
            · rw [hall i hlt hei]
              exact le_top
            · rw [heq]
          · intro i hi hei
            rw [hall i hi hei]
            exact hv
        · rw [if_neg hv]
          refine Or.inl ⟨rfl, fun i hi hei => ?_⟩
          rcases Nat.lt_succ_iff_lt_or_eq.1 hi with hlt | heq
          · exact hall i hlt hei
          · rw [heq]
            have : ¬ val m ≠ ⊤ := fun hne => hv (lt_top_iff_ne_top.2 hne)
            exact not_not.1 this
      · rw [if_neg helig, hs]
        refine Or.inl ⟨rfl, fun i hi hei => ?_⟩
        rcases Nat.lt_succ_iff_lt_or_eq.1 hi with hlt | heq
        · exact hall i hlt hei
        · rw [heq] at hei
          exact absurd hei helig
    · by_cases helig : elig m = true
      · rw [if_pos helig, hs]
        by_cases hv : val m < (((val i0 : WithTop ℚ), dwv i0, Par.node i0) : Slot).1
        · rw [if_pos hv]
          have hvm : val m < val i0 := hv
          refine Or.inr ⟨m, ⟨Nat.lt_succ_self m, helig, ?_, ?_⟩, lt_trans hvm hlt0, rfl⟩
          · intro i hi hei
            rcases Nat.lt_succ_iff_lt_or_eq.1 hi with hlt | heq
            · exact le_of_lt (lt_of_lt_of_le hvm (hmin i hlt hei))
            · rw [heq]
          · intro i hi hei
            exact lt_of_lt_of_le hvm (hmin i hi hei)
        · rw [if_neg hv]
          have hle : val i0 ≤ val m := not_lt.1 hv
          refine Or.inr ⟨i0, ⟨Nat.lt_succ_of_lt hi0m, he0, fun i hi hei => ?_, hstrict⟩, hlt0, rfl⟩
          rcases Nat.lt_succ_iff_lt_or_eq.1 hi with hlt | heq
          · exact hmin i hlt hei
          · rw [heq]
            exact hle
      · rw [if_neg helig, hs]
        refine Or.inr ⟨i0, ⟨Nat.lt_succ_of_lt hi0m, he0, fun i hi hei => ?_, hstrict⟩, hlt0, rfl⟩
        rcases Nat.lt_succ_iff_lt_or_eq.1 hi with hlt | heq
        · exact hmin i hlt hei
        · rw [heq] at hei
          exact absurd hei helig

theorem foldl_min_le_acc : ∀ (l : List (WithTop ℚ)) (acc : WithTop ℚ), l.foldl min acc ≤ acc
  | [], acc => le_refl acc
  | x :: xs, acc => le_trans (foldl_min_le_acc xs (min acc x)) (min_le_left acc x)

theorem foldl_min_le_mem : ∀ (l : List (WithTop ℚ)) (acc x : WithTop ℚ), x ∈ l →
    l.foldl min acc ≤ x
  | [], _, _, hx => absurd hx (by simp)
  | y :: ys, acc, x, hx => by
    rcases List.mem_cons.1 hx with heq | hmem
    · subst heq
      exact le_trans (foldl_min_le_acc ys (min acc x)) (min_le_right acc x)
    · exact foldl_min_le_mem ys (min acc y) x hmem

theorem foldl_min_acc_or_mem : ∀ (l : List (WithTop ℚ)) (acc : WithTop ℚ),
    l.foldl min acc = acc ∨ l.foldl min acc ∈ l
  | [], _ => Or.inl rfl
  | x :: xs, acc => by
    rcases foldl_min_acc_or_mem xs (min acc x) with heq | hmem
    · rw [List.foldl_cons, heq]
      rcases min_choice acc x with h | h
      · exact Or.inl h
      · refine Or.inr ?_
        rw [h]
        exact List.mem_cons_self x xs
    · exact Or.inr (List.mem_cons_of_mem x hmem)

theorem rowMin_le (l : List (WithTop ℚ)) (x : WithTop ℚ) (hx : x ∈ l) : rowMin l ≤ x :=
  foldl_min_le_mem l ⊤ x hx

theorem rowMin_mem : ∀ (l : List (WithTop ℚ)), l ≠ [] → rowMin l ∈ l
  | [], h => absurd rfl h
  | x :: xs, _ => by
    rcases foldl_min_acc_or_mem (x :: xs) ⊤ with heq | hmem
    · have hle : rowMin (x :: xs) ≤ x := rowMin_le _ x (List.mem_cons_self x xs)
      unfold rowMin at *
      rw [heq] at hle ⊢
      have hx : x = ⊤ := top_le_iff.1 hle
      rw [hx] at *
      exact List.mem_cons_self ⊤ xs
    · exact hmem

theorem argminW_lt_length (l : List (WithTop ℚ)) (h : l ≠ []) : argminW l < l.length := by
  unfold argminW
  apply List.findIdx_lt_length_of_exists
  exact ⟨rowMin l, rowMin_mem l h, by simp⟩

theorem argminW_getD (l : List (WithTop ℚ)) (h : l ≠ []) :
    l.getD (argminW l) ⊤ = rowMin l := by
  have hlt := argminW_lt_length l h
  unfold argminW at hlt ⊢
  have hp := @List.findIdx_getElem _ (fun x => decide (x = rowMin l)) l hlt
  rw [List.getD_eq_getElem?_getD, List.getElem?_eq_getElem hlt]
  simpa using hp

theorem argminW_le (l : List (WithTop ℚ)) (h : l ≠ []) (k : ℕ) (hk : k < l.length) :
    l.getD (argminW l) ⊤ ≤ l.getD k ⊤ := by
  rw [argminW_getD l h]
  apply rowMin_le
  rw [List.getD_eq_getElem?_getD, List.getElem?_eq_getElem hk]
  exact List.getElem_mem hk

theorem argminW_first (l : List (WithTop ℚ)) (hne : l ≠ []) (k : ℕ) (hk : k < argminW l) :
    l.getD (argminW l) ⊤ < l.getD k ⊤ := by
  have hkl : k < l.length := lt_trans hk (argminW_lt_length l hne)
  have hp : (fun x => decide (x = rowMin l)) l[k] = false := List.not_of_lt_findIdx hk
  have hne2 : l[k] ≠ rowMin l := by simpa using hp
  have hle : rowMin l ≤ l.getD k ⊤ := by
    apply rowMin_le
    rw [List.getD_eq_getElem?_getD, List.getElem?_eq_getElem hkl]
    exact List.getElem_mem hkl
  rw [argminW_getD l hne]
  apply lt_of_le_of_ne hle
  intro hc
  apply hne2
  rw [List.getD_eq_getElem?_getD, List.getElem?_eq_getElem hkl] at hc
  simpa using hc.symm

theorem retainedAt_def (cd : List CandLayer) (cutoff : Option ℕ) (t : ℕ) :
    cutMin (widthAt cd t) cutoff = retainedAt cd cutoff t := rfl

theorem cutMin_le (n : ℕ) (c : Option ℕ) : cutMin n c ≤ n := by
  cases c with
  | none => exact le_refl n
  | some m => exact Nat.min_le_left n m

theorem dpRow_zero_length (wf : WeightFun) (cd : List CandLayer) (exclude : Bool)
    (cutoff : Option ℕ) : (dpRow wf cd exclude cutoff 0).length = widthAt cd 0 := by
  simp [dpRow, widthAt]

theorem dpRow_succ_length (wf : WeightFun) (cd : List CandLayer) (exclude : Bool)
    (cutoff : Option ℕ) (t : ℕ) :
    (dpRow wf cd exclude cutoff (t+1)).length = retainedAt cd cutoff (t+1) := by
  rw [dpRow, relaxLayer_length, retainedAt_def]

theorem dpRow_zero_getD (wf : WeightFun) (cd : List CandLayer) (exclude : Bool)
    (cutoff : Option ℕ) (j : ℕ) (hj : j < widthAt cd 0) :
    (dpRow wf cd exclude cutoff 0).getD j defSlot =
      (((-((cd.getD 0 emptyLayer).iokrscores.getD j 0) : ℚ) : WithTop ℚ),
        (0 : WithBot ℚ), Par.root) := by
  rw [dpRow]
  exact getD_map_of_lt _ _ j hj defSlot 0

theorem dpRow_succ_slot (wf : WeightFun) (cd : List CandLayer) (exclude : Bool)
    (cutoff : Option ℕ) (t j : ℕ) (hj : j < retainedAt cd cutoff (t+1))
    (hej : eligAt exclude cd (t+1) j = true) :
    (dpRow wf cd exclude cutoff (t+1)).getD j defSlot =
      slotFold (fun i => eligAt exclude cd t i)
        (fun i => edgeVal wf cd exclude cutoff t j i)
        (fun i => ((dpRow wf cd exclude cutoff t).getD i defSlot).2.1 +
          ((wf cd (t, i) (t+1, j)).2 : WithBot ℚ))
        (retainedAt cd cutoff t) := by
  rw [dpRow, relaxLayer_slot wf cd exclude cutoff t _ j (by rw [retainedAt_def]; exact hj),
    if_pos hej, retainedAt_def]
  rfl

theorem dpRow_succ_slot_skip (wf : WeightFun) (cd : List CandLayer) (exclude : Bool)
    (cutoff : Option ℕ) (t j : ℕ) (hj : j < retainedAt cd cutoff (t+1))
    (hej : eligAt exclude cd (t+1) j = false) :
    (dpRow wf cd exclude cutoff (t+1)).getD j defSlot = defSlot := by
  rw [dpRow, relaxLayer_slot wf cd exclude cutoff t _ j (by rw [retainedAt_def]; exact hj),
    hej]
  simp

theorem costAt_zero_lt_top (wf : WeightFun) (cd : List CandLayer) (exclude : Bool)
    (cutoff : Option ℕ) (j : ℕ) (hj : j < widthAt cd 0) :
    costAt wf cd exclude cutoff 0 j < ⊤ := by
  unfold costAt
  rw [dpRow_zero_getD wf cd exclude cutoff j hj]
  exact WithTop.coe_lt_top _

theorem edgeVal_lt_top (wf : WeightFun) (cd : List CandLayer) (exclude : Bool)
    (cutoff : Option ℕ) (t j i : ℕ) (h : costAt wf cd exclude cutoff t i < ⊤) :
    edgeVal wf cd exclude cutoff t j i < ⊤ := by
  unfold edgeVal
  exact WithTop.add_lt_top.2 ⟨h, WithTop.coe_lt_top _⟩

theorem costAt_elig_lt_top (wf : WeightFun) (cd : List CandLayer) (exclude : Bool)
    (cutoff : Option ℕ)
    (havail : ∀ t, t < cd.length → ∃ i, i < retainedAt cd cutoff t ∧
      eligAt exclude cd t i = true) :
    ∀ t, t < cd.length → ∀ j, j < retainedAt cd cutoff t → eligAt exclude cd t j = true →
      costAt wf cd exclude cutoff t j < ⊤ := by
  intro t
  induction t with
  | zero =>
    intro _ j hj _
    exact costAt_zero_lt_top wf cd exclude cutoff j (lt_of_lt_of_le hj (cutMin_le _ _))
  | succ t ih =>
    intro ht j hj hej
    obtain ⟨i, hi, hei⟩ := havail t (Nat.lt_of_succ_lt ht)
    have hfin : costAt wf cd exclude cutoff t i < ⊤ := ih (Nat.lt_of_succ_lt ht) i hi hei
    unfold costAt
    rw [dpRow_succ_slot wf cd exclude cutoff t j hj hej]
    rcases slotFold_spec (fun i => eligAt exclude cd t i)
        (fun i => edgeVal wf cd exclude cutoff t j i)
        (fun i => ((dpRow wf cd exclude cutoff t).getD i defSlot).2.1 +
          ((wf cd (t, i) (t+1, j)).2 : WithBot ℚ))
        (retainedAt cd cutoff t) with ⟨hs, hall⟩ | ⟨i0, hfm, hlt0, hs⟩
    · exfalso
      have htop : edgeVal wf cd exclude cutoff t j i = ⊤ := hall i hi hei
      have hlt : edgeVal wf cd exclude cutoff t j i < ⊤ :=
        edgeVal_lt_top wf cd exclude cutoff t j i hfin
      rw [htop] at hlt
      exact lt_irrefl ⊤ hlt
    · rw [hs]
      exact hlt0

theorem dpRow_parent (wf : WeightFun) (cd : List CandLayer) (exclude : Bool)
    (cutoff : Option ℕ)
    (havail : ∀ t, t < cd.length → ∃ i, i < retainedAt cd cutoff t ∧
      eligAt exclude cd t i = true)
    (t : ℕ) (ht : t < cd.length) (j : ℕ) (hj : j < retainedAt cd cutoff (t+1))
    (hej : eligAt exclude cd (t+1) j = true) :
    ∃ i0, i0 < retainedAt cd cutoff t ∧ eligAt exclude cd t i0 = true ∧
      costAt wf cd exclude cutoff t i0 < ⊤ ∧
      parAt wf cd exclude cutoff (t+1) j = Par.node i0 ∧
      costAt wf cd exclude cutoff (t+1) j = edgeVal wf cd exclude cutoff t j i0 ∧
      IsFirstMin (fun i => eligAt exclude cd t i)
        (fun i => edgeVal wf cd exclude cutoff t j i) (retainedAt cd cutoff t) i0 := by
  obtain ⟨i, hi, hei⟩ := havail t ht
  have hfin : costAt wf cd exclude cutoff t i < ⊤ :=
    costAt_elig_lt_top wf cd exclude cutoff havail t ht i hi hei
  rcases slotFold_spec (fun i => eligAt exclude cd t i)
      (fun i => edgeVal wf cd exclude cutoff t j i)
      (fun i => ((dpRow wf cd exclude cutoff t).getD i defSlot).2.1 +
        ((wf cd (t, i) (t+1, j)).2 : WithBot ℚ))
      (retainedAt cd cutoff t) with ⟨hs, hall⟩ | ⟨i0, hfm, hlt0, hs⟩
  · exfalso
    have htop : edgeVal wf cd exclude cutoff t j i = ⊤ := hall i hi hei
    have hlt : edgeVal wf cd exclude cutoff t j i < ⊤ :=
      edgeVal_lt_top wf cd exclude cutoff t j i hfin
    rw [htop] at hlt
    exact lt_irrefl ⊤ hlt
  · obtain ⟨hi0, hei0, hmin, hstrict⟩ := hfm
    refine ⟨i0, hi0, hei0, ?_, ?_, ?_, hi0, hei0, hmin, hstrict⟩
    · have : edgeVal wf cd exclude cutoff t j i0 < ⊤ := hlt0
      unfold edgeVal at this
      exact (WithTop.add_lt_top.1 this).1
    · unfold parAt
      rw [dpRow_succ_slot wf cd exclude cutoff t j hj hej, hs]
    · unfold costAt
      rw [dpRow_succ_slot wf cd exclude cutoff t j hj hej, hs]

theorem backtrack_zero (wf : WeightFun) (cd : List CandLayer) (exclude : Bool)
    (cutoff : Option ℕ) (j : ℕ) (hj : j < widthAt cd 0) :
    backtrack wf cd exclude cutoff 0 j = some [j] := by
  rw [backtrack, dpRow_zero_getD wf cd exclude cutoff j hj]

theorem backtrack_spec (wf : WeightFun) (cd : List CandLayer) (exclude : Bool)
    (cutoff : Option ℕ)
    (havail : ∀ t, t < cd.length → ∃ i, i < retainedAt cd cutoff t ∧
      eligAt exclude cd t i = true) :
    ∀ t, t < cd.length → 1 ≤ t → ∀ j, j < retainedAt cd cutoff t →
      eligAt exclude cd t j = true →
      ∃ p, backtrack wf cd exclude cutoff t j = some p ∧ p.length = t + 1 ∧
        p.getD t 0 = j ∧
        ∀ u, u < t + 1 → p.getD u 0 < retainedAt cd cutoff u ∧
          eligAt exclude cd u (p.getD u 0) = true := by
  intro t
  induction t with
  | zero => intro _ h10; omega
  | succ t ih =>
    intro ht _ j hj hej
    obtain ⟨i0, hi0, hei0, hfin0, hpar, hcost, hfm⟩ :=
      dpRow_parent wf cd exclude cutoff havail t (Nat.lt_of_succ_lt ht) j hj hej
    unfold parAt at hpar
    by_cases ht0 : t = 0
    · subst ht0
      have hb0 : backtrack wf cd exclude cutoff 0 i0 = some [i0] :=
        backtrack_zero wf cd exclude cutoff i0 (lt_of_lt_of_le hi0 (cutMin_le _ _))
      refine ⟨[i0, j], ?_, rfl, rfl, ?_⟩
      · rw [backtrack, hpar]
        dsimp only
        rw [hb0]
        rfl
      · intro u hu
        interval_cases u
        · exact ⟨hi0, hei0⟩
        · exact ⟨hj, hej⟩
    · have ht1 : 1 ≤ t := Nat.one_le_iff_ne_zero.2 ht0
      obtain ⟨p, hbp, hlen, hlast, hall⟩ := ih (Nat.lt_of_succ_lt ht) ht1 i0 hi0 hei0
      refine ⟨p ++ [j], ?_, by simp [hlen], ?_, ?_⟩
      · rw [backtrack, hpar]
        dsimp only
        rw [hbp]
        rfl
      · rw [List.getD_append_right p [j] 0 (t+1) (by omega)]
        simp [hlen]
      · intro u hu
        rcases Nat.lt_succ_iff_lt_or_eq.1 hu with hu1 | hu1
        · rw [List.getD_append p [j] 0 u (by omega)]
          exact hall u hu1
        · subst hu1
          rw [List.getD_append_right p [j] 0 (t+1) (by omega)]
          simp only [hlen, Nat.sub_self]
          exact ⟨hj, hej⟩

theorem widthAt_pos (cd : List CandLayer) (cutoff : Option ℕ) (t : ℕ) (i : ℕ)
    (hi : i < retainedAt cd cutoff t) : 0 < widthAt cd t :=
  Nat.lt_of_lt_of_le (Nat.lt_of_le_of_lt (Nat.zero_le i) hi) (cutMin_le _ _)

theorem sp_valid (wf : WeightFun) (cd : List CandLayer) (cutoff : Option ℕ)
    (check exclude : Bool)
    (hL : 1 ≤ cd.length)
    (hchk : check = true → checkInputOk exclude cd = true)
    (havail : ∀ t, t < cd.length → ∃ i, i < retainedAt cd cutoff t ∧
      eligAt exclude cd t i = true) :
    ∃ p c, shortest_path_exclude_candidates cd wf cutoff check exclude = some (p, c) ∧
      p.length = cd.length ∧
      (∀ t, t < cd.length → p.getD t 0 < widthAt cd t) ∧
      (2 ≤ cd.length → ∀ t, t < cd.length →
        p.getD t 0 < retainedAt cd cutoff t ∧ eligAt exclude cd t (p.getD t 0) = true) ∧
      p.getD (cd.length - 1) 0 =
        argminW ((dpRow wf cd exclude cutoff (cd.length - 1)).map (fun s => s.1)) := by
  have hcond : (check && !(checkInputOk exclude cd)) = false := by
    cases check with
    | false => rfl
    | true => rw [hchk rfl]; rfl
  unfold shortest_path_exclude_candidates
  rw [hcond]
  simp only [Bool.false_eq_true, if_false]
  rcases Nat.lt_or_ge cd.length 2 with hlt2 | hge2
  · -- single layer
    have hl1 : cd.length = 1 := by omega
    rw [hl1]
    simp only [Nat.sub_self]
    obtain ⟨i, hi, hei⟩ := havail 0 (by omega)
    have hw0 : 0 < widthAt cd 0 := widthAt_pos cd cutoff 0 i hi
    have hrow : (dpRow wf cd exclude cutoff 0).length = widthAt cd 0 :=
      dpRow_zero_length wf cd exclude cutoff
    have hne : (dpRow wf cd exclude cutoff 0).map (fun s => s.1) ≠ [] := by
      intro hc
      have := congrArg List.length hc
      simp [hrow] at this
      omega
    have hj0 : argminW ((dpRow wf cd exclude cutoff 0).map (fun s => s.1)) < widthAt cd 0 := by
      have := argminW_lt_length _ hne
      rwa [List.length_map, hrow] at this
    rw [backtrack_zero wf cd exclude cutoff _ hj0]
    refine ⟨_, _, rfl, rfl, ?_, by omega, rfl⟩
    intro t ht
    have ht0 : t = 0 := by omega
    subst ht0
    exact hj0
  · -- at least two layers
    obtain ⟨n, hn⟩ : ∃ n, cd.length = n + 2 := ⟨cd.length - 2, by omega⟩
    have hsub : cd.length - 1 = n + 1 := by omega
    rw [hsub]
    have hT : n + 1 < cd.length := by omega
    have hrowlen : (dpRow wf cd exclude cutoff (n+1)).length = retainedAt cd cutoff (n+1) :=
      dpRow_succ_length wf cd exclude cutoff n
    obtain ⟨i, hi, hei⟩ := havail (n+1) hT
    have hfin : costAt wf cd exclude cutoff (n+1) i < ⊤ :=
      costAt_elig_lt_top wf cd exclude cutoff havail (n+1) hT i hi hei
    have hne : (dpRow wf cd exclude cutoff (n+1)).map (fun s => s.1) ≠ [] := by
      intro hc
      have := congrArg List.length hc
      simp [hrowlen] at this
      omega
    have hmaplen : ((dpRow wf cd exclude cutoff (n+1)).map (fun s => s.1)).length =
        retainedAt cd cutoff (n+1) := by
      rw [List.length_map, hrowlen]
    have hj0lt : argminW ((dpRow wf cd exclude cutoff (n+1)).map (fun s => s.1)) <
        retainedAt cd cutoff (n+1) := by
      have := argminW_lt_length _ hne
      rwa [hmaplen] at this
    have hgetmap : ∀ k, k < retainedAt cd cutoff (n+1) →
        ((dpRow wf cd exclude cutoff (n+1)).map (fun s => s.1)).getD k ⊤ =
          costAt wf cd exclude cutoff (n+1) k := by
      intro k hk
      unfold costAt
      exact getD_map_of_lt _ _ k (by rw [hrowlen]; exact hk) ⊤ defSlot
    have hj0fin : costAt wf cd exclude cutoff (n+1)
        (argminW ((dpRow wf cd exclude cutoff (n+1)).map (fun s => s.1))) < ⊤ := by
      rw [← hgetmap _ hj0lt]
      calc ((dpRow wf cd exclude cutoff (n+1)).map (fun s => s.1)).getD
            (argminW ((dpRow wf cd exclude cutoff (n+1)).map (fun s => s.1))) ⊤
          ≤ ((dpRow wf cd exclude cutoff (n+1)).map (fun s => s.1)).getD i ⊤ :=
            argminW_le _ hne i (by rw [hmaplen]; exact hi)
        _ = costAt wf cd exclude cutoff (n+1) i := hgetmap i hi
        _ < ⊤ := hfin
    have hj0elig : eligAt exclude cd (n+1)
        (argminW ((dpRow wf cd exclude cutoff (n+1)).map (fun s => s.1))) = true := by
      by_contra hc
      have hF : eligAt exclude cd (n+1)
          (argminW ((dpRow wf cd exclude cutoff (n+1)).map (fun s => s.1))) = false :=
        Bool.eq_false_iff.mpr hc
      have := dpRow_succ_slot_skip wf cd exclude cutoff n _ hj0lt hF
      have hTop : costAt wf cd exclude cutoff (n+1)
          (argminW ((dpRow wf cd exclude cutoff (n+1)).map (fun s => s.1))) = ⊤ := by
        unfold costAt
        rw [this]
        rfl
      rw [hTop] at hj0fin
      exact lt_irrefl ⊤ hj0fin
    obtain ⟨p, hbp, hlen, hlast, hall⟩ := backtrack_spec wf cd exclude cutoff havail
      (n+1) hT (by omega) _ hj0lt hj0elig
    rw [hbp]
    refine ⟨_, _, rfl, by rw [hlen, hn], ?_, ?_, hlast⟩
    · intro t ht
      rw [hn] at ht
      have := hall t (by omega)
      exact lt_of_lt_of_le this.1 (cutMin_le _ _)
    · intro _ t ht
      rw [hn] at ht
      exact hall t (by omega)

theorem is_sorted_desc_of_pairwise : ∀ (l : List ℚ), l.Pairwise (fun a b => b < a) →
    is_sorted_desc l = true
  | [], _ => rfl
  | [_], _ => rfl
  | a :: b :: rest, h => by
    simp only [is_sorted_desc, Bool.and_eq_true, decide_eq_true_eq]
    exact ⟨le_of_lt ((List.pairwise_cons.1 h).1 b (List.mem_cons_self b rest)),
      is_sorted_desc_of_pairwise (b :: rest) (List.pairwise_cons.1 h).2⟩

theorem checkLayers_of_invariants (exclude : Bool) :
    ∀ (cd : List CandLayer) (rt : WithBot ℚ),
      (∀ l ∈ cd, l.iokrscores.Pairwise (fun a b => b < a)) →
      (∀ l ∈ cd, exclude = true → l.is_blocked.length = l.iokrscores.length) →
      (cd.map (fun l => l.rt_cand_list)).Chain' (fun a b => a ≤ b) →
      (∀ y : ℚ, y ∈ (cd.map (fun l => l.rt_cand_list)).head? → rt ≤ (y : WithBot ℚ)) →
      checkLayers exclude rt cd = true
  | [], _, _, _, _, _ => rfl
  | l :: rest, rt, hdesc, hbl, hrt, hhead => by
    simp only [checkLayers, Bool.and_eq_true, decide_eq_true_eq]
    refine ⟨⟨⟨?_, ?_⟩, ?_⟩, ?_⟩
    · exact is_sorted_desc_of_pairwise l.iokrscores (hdesc l (List.mem_cons_self l rest))
    · exact hhead l.rt_cand_list (by simp)
    · cases exclude with
      | false => simp
      | true =>
        simp only [Bool.not_true, Bool.false_or, decide_eq_true_eq]
        exact hbl l (List.mem_cons_self l rest) rfl
    · have hrt2 : List.Chain' (fun a b => a ≤ b)
          (l.rt_cand_list :: rest.map (fun x => x.rt_cand_list)) := by
        simpa using hrt
      apply checkLayers_of_invariants exclude rest (l.rt_cand_list : WithBot ℚ)
      · intro x hx
        exact hdesc x (List.mem_cons_of_mem l hx)
      · intro x hx
        exact hbl x (List.mem_cons_of_mem l hx)
      · exact (List.chain'_cons'.1 hrt2).2
      · intro y hy
        have h1 : l.rt_cand_list ≤ y := (List.chain'_cons'.1 hrt2).1 y hy
        exact WithBot.coe_le_coe.2 h1


theorem checkInputOk_of_invariants (exclude : Bool) (cd : List CandLayer)
    (hdesc : ∀ l ∈ cd, l.iokrscores.Pairwise (fun a b => b < a))
    (hbl : ∀ l ∈ cd, exclude = true → l.is_blocked.length = l.iokrscores.length)
    (hrt : (cd.map (fun l => l.rt_cand_list)).Chain' (fun a b => a ≤ b)) :
    checkInputOk exclude cd = true := by
  apply checkLayers_of_invariants exclude cd ⊥ hdesc hbl hrt
  intro y _
  exact bot_le

theorem eligAt_true_iff (cd : List CandLayer) (t i : ℕ) :
    eligAt true cd t i = !(blockedAt cd t i) := by
  simp [eligAt]

/-- C2 (amended): for layers satisfying the section-3 invariants with at
least one non-blocked retained candidate in every layer,
`shortest_path_exclude_candidates` with validation and blocking enabled
returns a path whose length equals the number of layers and whose every
entry is a valid index into its layer; when there are at least two layers
every entry is additionally non-blocked.  (With exactly one layer the
returned index may be blocked — see the counterexample.) -/
theorem c2_path_valid (wf : WeightFun) (cd : List CandLayer) (cutoff : Option ℕ)
    (hL : 1 ≤ cd.length)
    (hdesc : ∀ l ∈ cd, l.iokrscores.Pairwise (fun a b => b < a))
    (hrt : (cd.map (fun l => l.rt_cand_list)).Chain' (fun a b => a ≤ b))
    (hbl : ∀ l ∈ cd, l.is_blocked.length = l.iokrscores.length)
    (havail : ∀ t, t < cd.length → ∃ i, i < retainedAt cd cutoff t ∧
      blockedAt cd t i = false) :
    ∃ p c, shortest_path_exclude_candidates cd wf cutoff true true = some (p, c) ∧
      p.length = cd.length ∧
      (∀ t, t < cd.length → p.getD t 0 < widthAt cd t) ∧
      (2 ≤ cd.length → ∀ t, t < cd.length → blockedAt cd t (p.getD t 0) = false) := by
  have hchk : checkInputOk true cd = true :=
    checkInputOk_of_invariants true cd hdesc (fun l hl _ => hbl l hl) hrt
  have havail2 : ∀ t, t < cd.length → ∃ i, i < retainedAt cd cutoff t ∧
      eligAt true cd t i = true := by
    intro t ht
    obtain ⟨i, hi, hb⟩ := havail t ht
    refine ⟨i, hi, ?_⟩
    rw [eligAt_true_iff, hb]
    rfl
  obtain ⟨p, c, h1, h2, h3, h4, _⟩ :=
    sp_valid wf cd cutoff true true hL (fun _ => hchk) havail2
  refine ⟨p, c, h1, h2, h3, ?_⟩
  intro h2L t ht
  have := (h4 h2L t ht).2
  rw [eligAt_true_iff] at this
  exact Bool.not_eq_true _ ▸ (by simpa using this)


theorem argminW_isFirstMin (l : List (WithTop ℚ)) (h : l ≠ []) :
    IsFirstMin (fun _ => true) (fun k => l.getD k ⊤) l.length (argminW l) :=
  ⟨argminW_lt_length l h, rfl, fun k hk _ => argminW_le l h k hk,
   fun k hk _ => argminW_first l h k hk⟩

theorem dpRow_last_map_ne_nil (wf : WeightFun) (cd : List CandLayer) (exclude : Bool)
    (cutoff : Option ℕ) (hL : 1 ≤ cd.length)
    (havail : ∀ t, t < cd.length → ∃ i, i < retainedAt cd cutoff t ∧
      eligAt exclude cd t i = true) :
    (dpRow wf cd exclude cutoff (cd.length - 1)).map (fun s => s.1) ≠ [] := by
  intro hc
  have hlen0 := congrArg List.length hc
  rw [List.length_map] at hlen0
  simp only [List.length_nil] at hlen0
  cases hT : cd.length - 1 with
  | zero =>
    rw [hT, dpRow_zero_length] at hlen0
    obtain ⟨i, hi, _⟩ := havail 0 (by omega)
    have := widthAt_pos cd cutoff 0 i hi
    omega
  | succ n =>
    rw [hT, dpRow_succ_length] at hlen0
    obtain ⟨i, hi, _⟩ := havail (n+1) (by omega)
    omega

/-- C7: the solver is deterministic — two calls with identical input agree —
and ties are broken towards the lowest index: the returned path ends at
the first index attaining the minimum of the final cost row (`np.argmin`
keeps the first minimum), and every parent pointer stored during
relaxation is the lowest eligible index attaining the minimal cumulative
cost, because the strict `<` comparison scanning `i` ascending keeps the
first-seen minimum. -/
theorem c7_determinism_tie_break (wf : WeightFun) (cd : List CandLayer) (cutoff : Option ℕ)
    (check exclude : Bool) (hL : 1 ≤ cd.length)
    (hchk : check = true → checkInputOk exclude cd = true)
    (havail : ∀ t, t < cd.length → ∃ i, i < retainedAt cd cutoff t ∧
      eligAt exclude cd t i = true) :
    shortest_path_exclude_candidates cd wf cutoff check exclude =
      shortest_path_exclude_candidates cd wf cutoff check exclude ∧
    (∃ p c, shortest_path_exclude_candidates cd wf cutoff check exclude = some (p, c) ∧
      p.getD (cd.length - 1) 0 =
        argminW ((dpRow wf cd exclude cutoff (cd.length - 1)).map (fun s => s.1))) ∧
    IsFirstMin (fun _ => true)
      (fun k => ((dpRow wf cd exclude cutoff (cd.length - 1)).map (fun s => s.1)).getD k ⊤)
      ((dpRow wf cd exclude cutoff (cd.length - 1)).map (fun s => s.1)).length
      (argminW ((dpRow wf cd exclude cutoff (cd.length - 1)).map (fun s => s.1))) ∧
    (∀ t j, t < cd.length → j < retainedAt cd cutoff (t+1) →
      eligAt exclude cd (t+1) j = true →
      ∃ i0, parAt wf cd exclude cutoff (t+1) j = Par.node i0 ∧
        IsFirstMin (fun i => eligAt exclude cd t i)
          (fun i => edgeVal wf cd exclude cutoff t j i) (retainedAt cd cutoff t) i0) := by
  refine ⟨rfl, ?_, ?_, ?_⟩
  · obtain ⟨p, c, h1, _, _, _, hterm⟩ := sp_valid wf cd cutoff check exclude hL hchk havail
    exact ⟨p, c, h1, hterm⟩
  · exact argminW_isFirstMin _ (dpRow_last_map_ne_nil wf cd exclude cutoff hL havail)
  · intro t j ht hj hej
    obtain ⟨i0, _, _, _, hpar, _, hfm⟩ :=
      dpRow_parent wf cd exclude cutoff havail t ht j hj hej
    exact ⟨i0, hpar, hfm⟩

theorem pairwise_desc_getD (l : List ℚ) (hdesc : l.Pairwise (fun a b => b < a))
    (j1 j2 : ℕ) (h12 : j1 < j2) (h2 : j2 < l.length) : l.getD j2 0 < l.getD j1 0 := by
  have h1 : j1 < l.length := lt_trans h12 h2
  have := List.pairwise_iff_get.1 hdesc ⟨j1, h1⟩ ⟨j2, h2⟩ h12
  rw [List.getD_eq_getElem?_getD l j1 0, List.getElem?_eq_getElem h1,
    List.getD_eq_getElem?_getD l j2 0, List.getElem?_eq_getElem h2]
  simpa using this

theorem argminW_zero_of_strict (l : List (WithTop ℚ)) (hne : l ≠ [])
    (hstrict : ∀ k, 0 < k → k < l.length → l.getD 0 ⊤ < l.getD k ⊤) : argminW l = 0 := by
  by_contra h
  have hpos : 0 < argminW l := Nat.pos_of_ne_zero h
  have h1 := argminW_first l hne 0 hpos
  have h2 := hstrict (argminW l) hpos (argminW_lt_length l hne)
  exact lt_irrefl _ (lt_trans h1 h2)

/-- C10: called on exactly one layer, the relaxation loop never runs, so
the per-layer cutoff and the blocking flag are both ignored: the returned
path is `[0]` (the top-score candidate, the argmin of the negated scores
over ALL candidates) even if that candidate is blocked or lies beyond the
cutoff, and the cost is `-scores[0][0]`. -/
theorem c10_single_layer (l : CandLayer) (wf : WeightFun) (cutoff : Option ℕ)
    (exclude : Bool)
    (hdesc : l.iokrscores.Pairwise (fun a b => b < a)) (hne : l.iokrscores ≠ []) :
    shortest_path_exclude_candidates [l] wf cutoff false exclude =
      some ([0], ((-(l.iokrscores.getD 0 0) : ℚ) : WithTop ℚ)) := by
  have hw : 0 < widthAt [l] 0 := by
    unfold widthAt
    simpa using List.length_pos.2 hne
  have hrow0 : ∀ j, j < widthAt [l] 0 →
      ((dpRow wf [l] exclude cutoff 0).map (fun s => s.1)).getD j ⊤ =
        ((-(l.iokrscores.getD j 0) : ℚ) : WithTop ℚ) := by
    intro j hj
    have hlen : j < (dpRow wf [l] exclude cutoff 0).length := by
      rw [dpRow_zero_length]
      exact hj
    rw [getD_map_of_lt _ _ j hlen ⊤ defSlot, dpRow_zero_getD wf [l] exclude cutoff j hj]
    rfl
  have hmapne : (dpRow wf [l] exclude cutoff 0).map (fun s => s.1) ≠ [] := by
    intro hc
    have := congrArg List.length hc
    rw [List.length_map, dpRow_zero_length] at this
    simp at this
    rw [this] at hw
    exact lt_irrefl 0 hw
  have hmaplen : ((dpRow wf [l] exclude cutoff 0).map (fun s => s.1)).length = widthAt [l] 0 := by
    rw [List.length_map, dpRow_zero_length]
  have hargmin : argminW ((dpRow wf [l] exclude cutoff 0).map (fun s => s.1)) = 0 := by
    apply argminW_zero_of_strict _ hmapne
    intro k hk hkl
    rw [hmaplen] at hkl
    rw [hrow0 0 hw, hrow0 k hkl]
    have := pairwise_desc_getD l.iokrscores hdesc 0 k hk (by simpa [widthAt] using hkl)
    rw [WithTop.coe_lt_coe]
    exact neg_lt_neg this
  unfold shortest_path_exclude_candidates
  simp only [Bool.false_and, Bool.false_eq_true, if_false]
  have hlen1 : ([l] : List CandLayer).length - 1 = 0 := rfl
  rw [hlen1, hargmin, backtrack_zero wf [l] exclude cutoff 0 hw]
  have hcost : ((dpRow wf [l] exclude cutoff 0).getD 0 defSlot).1 =
      ((-(l.iokrscores.getD 0 0) : ℚ) : WithTop ℚ) := by
    rw [dpRow_zero_getD wf [l] exclude cutoff 0 hw]
    rfl
  rw [hcost]
  rfl

theorem getD_mem_of_lt {α : Type} (l : List α) (t : ℕ) (d : α) (h : t < l.length) :
    l.getD t d ∈ l := by
  rw [List.getD_eq_getElem?_getD, List.getElem?_eq_getElem h]
  exact List.getElem_mem h

theorem weight_func_max_eps_inf (lg : ℚ → ℚ) (hlg : lg 1 = 0) (D : ℚ) (us ul : Bool)
    (cd : List CandLayer) (u v : ℕ × ℕ) :
    weight_func_max lg ⟨D, us, none, ul⟩ cd u v =
      (- (cd.getD v.1 emptyLayer).iokrscores.getD v.2 0, 0) := by
  unfold weight_func_max leOptQ qsign
  simp [hlg]

theorem c4_row_inv (lg : ℚ → ℚ) (hlg : lg 1 = 0) (D : ℚ) (us ul : Bool)
    (cd : List CandLayer)
    (hdesc : ∀ l ∈ cd, l.iokrscores.Pairwise (fun a b => b < a))
    (hw : ∀ l ∈ cd, l.iokrscores ≠ []) :
    ∀ t, t < cd.length →
      (∀ j1 j2, j1 < j2 → j2 < widthAt cd t →
        costAt (weight_func_max lg ⟨D, us, none, ul⟩) cd false none t j1 <
          costAt (weight_func_max lg ⟨D, us, none, ul⟩) cd false none t j2) ∧
      costAt (weight_func_max lg ⟨D, us, none, ul⟩) cd false none t 0 < ⊤ ∧
      (1 ≤ t → ∀ j, j < widthAt cd t →
        parAt (weight_func_max lg ⟨D, us, none, ul⟩) cd false none t j = Par.node 0) := by
  intro t
  induction t with
  | zero =>
    intro ht
    have hmem : cd.getD 0 emptyLayer ∈ cd := getD_mem_of_lt cd 0 emptyLayer ht
    have hdesc0 := hdesc _ hmem
    have hw0 : 0 < widthAt cd 0 := by
      unfold widthAt
      exact List.length_pos.2 (hw _ hmem)
    refine ⟨?_, ?_, by omega⟩
    · intro j1 j2 h12 h2
      unfold costAt
      rw [dpRow_zero_getD _ cd false none j1 (lt_trans h12 h2),
        dpRow_zero_getD _ cd false none j2 h2]
      simp only [WithTop.coe_lt_coe]
      exact neg_lt_neg (pairwise_desc_getD _ hdesc0 j1 j2 h12 h2)
    · unfold costAt
      rw [dpRow_zero_getD _ cd false none 0 hw0]
      exact WithTop.coe_lt_top _
  | succ t ih =>
    intro ht
    obtain ⟨ih1, ih2, _⟩ := ih (Nat.lt_of_succ_lt ht)
    have hmem : cd.getD (t+1) emptyLayer ∈ cd := getD_mem_of_lt cd (t+1) emptyLayer ht
    have hwt1 : 0 < widthAt cd (t+1) := by
      unfold widthAt
      exact List.length_pos.2 (hw _ hmem)
    have hmemt : cd.getD t emptyLayer ∈ cd := getD_mem_of_lt cd t emptyLayer (Nat.lt_of_succ_lt ht)
    have hwt : 0 < widthAt cd t := by
      unfold widthAt
      exact List.length_pos.2 (hw _ hmemt)
    have hret1 : retainedAt cd none (t+1) = widthAt cd (t+1) := rfl
    have hret : retainedAt cd none t = widthAt cd t := rfl
    -- characterise every slot of row t+1
    have hslot : ∀ j, j < widthAt cd (t+1) →
        (dpRow (weight_func_max lg ⟨D, us, none, ul⟩) cd false none (t+1)).getD j defSlot =
          (costAt (weight_func_max lg ⟨D, us, none, ul⟩) cd false none t 0 +
            ((- (cd.getD (t+1) emptyLayer).iokrscores.getD j 0 : ℚ) : WithTop ℚ),
           ((dpRow (weight_func_max lg ⟨D, us, none, ul⟩) cd false none t).getD 0 defSlot).2.1 +
             ((0 : ℚ) : WithBot ℚ), Par.node 0) := by
      intro j hj
      have hej : eligAt false cd (t+1) j = true := rfl
      rw [dpRow_succ_slot _ cd false none t j (by rw [hret1]; exact hj) hej]
      have hval : ∀ i, edgeVal (weight_func_max lg ⟨D, us, none, ul⟩) cd false none t j i =
          costAt (weight_func_max lg ⟨D, us, none, ul⟩) cd false none t i +
            ((- (cd.getD (t+1) emptyLayer).iokrscores.getD j 0 : ℚ) : WithTop ℚ) := by
        intro i
        unfold edgeVal
        rw [weight_func_max_eps_inf lg hlg D us ul cd (t, i) (t+1, j)]
      rcases slotFold_spec (fun i => eligAt false cd t i)
          (fun i => edgeVal (weight_func_max lg ⟨D, us, none, ul⟩) cd false none t j i)
          (fun i => ((dpRow (weight_func_max lg ⟨D, us, none, ul⟩) cd false none t).getD i defSlot).2.1 +
            (((weight_func_max lg ⟨D, us, none, ul⟩ cd (t, i) (t+1, j)).2 : ℚ) : WithBot ℚ))
          (retainedAt cd none t) with ⟨hs, hall⟩ | ⟨i0, ⟨hi0, _, hmin, hstrict⟩, hlt0, hs⟩
      · exfalso
        have h0r : (0 : ℕ) < retainedAt cd none t := by rw [hret]; exact hwt
        have := hall 0 h0r rfl
        rw [hval 0] at this
        have hfin : costAt (weight_func_max lg ⟨D, us, none, ul⟩) cd false none t 0 +
            ((- (cd.getD (t+1) emptyLayer).iokrscores.getD j 0 : ℚ) : WithTop ℚ) < ⊤ :=
          WithTop.add_lt_top.2 ⟨ih2, WithTop.coe_lt_top _⟩
        rw [this] at hfin
        exact lt_irrefl ⊤ hfin
      · have hi00 : i0 = 0 := by
          by_contra hne0
          have hpos : 0 < i0 := Nat.pos_of_ne_zero hne0
          have h1 := hstrict 0 hpos rfl
          have h2 : edgeVal (weight_func_max lg ⟨D, us, none, ul⟩) cd false none t j 0 ≤
              edgeVal (weight_func_max lg ⟨D, us, none, ul⟩) cd false none t j i0 := by
            rw [hval 0, hval i0]
            rcases Nat.eq_zero_or_pos i0 with h | h
            · omega
            · apply le_of_lt
              apply WithTop.add_lt_add_right
              · exact WithTop.coe_ne_top
              · exact ih1 0 i0 hpos (by rw [hret] at hi0; exact hi0)
          exact absurd (lt_of_lt_of_le h1 h2) (lt_irrefl _)
        subst hi00
        rw [hs, hval 0]
        have hd2 : (weight_func_max lg ⟨D, us, none, ul⟩ cd (t, 0) (t+1, j)).2 = 0 := by
          rw [weight_func_max_eps_inf lg hlg D us ul cd (t, 0) (t+1, j)]
        rw [hd2]
    refine ⟨?_, ?_, ?_⟩
    · intro j1 j2 h12 h2
      unfold costAt
      rw [hslot j1 (lt_trans h12 h2), hslot j2 h2]
      apply WithTop.add_lt_add_left
      · intro hc
        rw [hc] at ih2
        exact lt_irrefl ⊤ ih2
      · simp only [WithTop.coe_lt_coe]
        exact neg_lt_neg (pairwise_desc_getD _ (hdesc _ hmem) j1 j2 h12 h2)
    · unfold costAt
      rw [hslot 0 hwt1]
      exact WithTop.add_lt_top.2 ⟨ih2, WithTop.coe_lt_top _⟩
    · intro _ j hj
      unfold parAt
      rw [hslot j hj]

theorem argmaxQ_zero_of_desc (l : List ℚ) (hne : l ≠ [])
    (hdesc : l.Pairwise (fun a b => b < a)) : argmaxQ l = 0 := by
  cases l with
  | nil => exact absurd rfl hne
  | cons a rest =>
    unfold argmaxQ
    rw [List.findIdx_cons]
    have hmax : ∀ y ∈ a :: rest, y ≤ a := by
      intro y hy
      rcases List.mem_cons.1 hy with h | h
      · rw [h]
      · exact le_of_lt ((List.pairwise_cons.1 hdesc).1 y h)
    have hrest : ∀ y ∈ rest, y ≤ a := fun y hy => hmax y (List.mem_cons_of_mem a hy)
    have hdec : decide (∀ y ∈ rest, y ≤ a) = true := decide_eq_true hrest
    simp [hmax, hdec]

theorem c4_backtrack (wf : WeightFun) (cd : List CandLayer) (hw0 : 0 < widthAt cd 0) :
    ∀ t, (∀ u, 1 ≤ u → u ≤ t → parAt wf cd false none u 0 = Par.node 0) →
      backtrack wf cd false none t 0 = some (List.replicate (t+1) 0)
  | 0, _ => backtrack_zero wf cd false none 0 hw0
  | t + 1, hpar => by
    have hp := hpar (t+1) (by omega) (le_refl _)
    unfold parAt at hp
    rw [backtrack, hp]
    dsimp only
    rw [c4_backtrack wf cd hw0 t (fun u h1 h2 => hpar u h1 (by omega))]
    simp only [Option.map_some']
    rw [← List.replicate_succ']

/-- C4: with `epsilon_rt = np.inf` (modelled by `none`) every
retention-time gap is suppressed, the order delta is forced to `0` and
every edge weight degenerates to the negated tail score, so the shortest
path equals the per-layer greedy argmax of the match scores — index 0 in
every layer since scores are strictly descending.  (`lg 1 = 0` is the one
fact used about `np.log`.) -/
theorem c4_eps_infinity_greedy (lg : ℚ → ℚ) (D : ℚ) (us ul : Bool) (cd : List CandLayer)
    (hlg : lg 1 = 0) (hL : 1 ≤ cd.length)
    (hdesc : ∀ l ∈ cd, l.iokrscores.Pairwise (fun a b => b < a))
    (hw : ∀ l ∈ cd, l.iokrscores ≠ []) :
    (shortest_path cd (weight_func_max lg ⟨D, us, none, ul⟩) none false).map Prod.fst =
      some (greedyPath cd) ∧
    greedyPath cd = List.replicate cd.length 0 := by
  have hgreedy : greedyPath cd = List.replicate cd.length 0 := by
    unfold greedyPath
    apply List.eq_replicate_iff.2
    refine ⟨List.length_map _ _, ?_⟩
    intro b hb
    obtain ⟨l, hl, heq⟩ := List.mem_map.1 hb
    rw [← heq]
    exact argmaxQ_zero_of_desc l.iokrscores (hw l hl) (hdesc l hl)
  refine ⟨?_, hgreedy⟩
  have hT : cd.length - 1 < cd.length := by omega
  obtain ⟨hstrict, hfin, _⟩ := c4_row_inv lg hlg D us ul cd hdesc hw (cd.length - 1) hT
  have hwT : 0 < widthAt cd (cd.length - 1) := by
    unfold widthAt
    exact List.length_pos.2 (hw _ (getD_mem_of_lt cd (cd.length - 1) emptyLayer hT))
  have hw0 : 0 < widthAt cd 0 := by
    unfold widthAt
    exact List.length_pos.2 (hw _ (getD_mem_of_lt cd 0 emptyLayer (by omega)))
  have hrowlen : (dpRow (weight_func_max lg ⟨D, us, none, ul⟩) cd false none
      (cd.length - 1)).length = widthAt cd (cd.length - 1) := by
    cases hc : cd.length - 1 with
    | zero => rw [hc] at *; exact dpRow_zero_length _ cd false none
    | succ n => rw [hc] at *; exact dpRow_succ_length _ cd false none n
  have hmaplen : ((dpRow (weight_func_max lg ⟨D, us, none, ul⟩) cd false none
      (cd.length - 1)).map (fun s => s.1)).length = widthAt cd (cd.length - 1) := by
    rw [List.length_map, hrowlen]
  have hmapne : (dpRow (weight_func_max lg ⟨D, us, none, ul⟩) cd false none
      (cd.length - 1)).map (fun s => s.1) ≠ [] := by
    intro hc
    have := congrArg List.length hc
    rw [hmaplen] at this
    simp at this
    omega
  have hgetmap : ∀ k, k < widthAt cd (cd.length - 1) →
      ((dpRow (weight_func_max lg ⟨D, us, none, ul⟩) cd false none
        (cd.length - 1)).map (fun s => s.1)).getD k ⊤ =
        costAt (weight_func_max lg ⟨D, us, none, ul⟩) cd false none (cd.length - 1) k := by
    intro k hk
    unfold costAt
    exact getD_map_of_lt _ _ k (by rw [hrowlen]; exact hk) ⊤ defSlot
  have hargmin : argminW ((dpRow (weight_func_max lg ⟨D, us, none, ul⟩) cd false none
      (cd.length - 1)).map (fun s => s.1)) = 0 := by
    apply argminW_zero_of_strict _ hmapne
    intro k hk hkl
    rw [hmaplen] at hkl
    rw [hgetmap 0 hwT, hgetmap k hkl]
    exact hstrict 0 k hk hkl
  have hpar : ∀ u, 1 ≤ u → u ≤ cd.length - 1 →
      parAt (weight_func_max lg ⟨D, us, none, ul⟩) cd false none u 0 = Par.node 0 := by
    intro u h1 h2
    have hu : u < cd.length := by omega
    obtain ⟨_, _, hp⟩ := c4_row_inv lg hlg D us ul cd hdesc hw u hu
    apply hp h1
    unfold widthAt
    exact List.length_pos.2 (hw _ (getD_mem_of_lt cd u emptyLayer hu))
  unfold shortest_path shortest_path_exclude_candidates
  simp only [Bool.false_and, Bool.false_eq_true, if_false]
  rw [hargmin, c4_backtrack (weight_func_max lg ⟨D, us, none, ul⟩) cd hw0 (cd.length - 1) hpar]
  have hTp : cd.length - 1 + 1 = cd.length := by omega
  rw [hTp]
  simp [hgreedy]

/-- Witness for C2 on a concrete two-layer input with a blocked top
candidate in layer 0. -/
theorem c2_path_valid_witness :
    ∃ p c, shortest_path_exclude_candidates [blockedSingleLayer, scenarioLayer1]
        (weight_func_max (fun _ => 0) scenarioCfg) none true true = some (p, c) ∧
      p.length = ([blockedSingleLayer, scenarioLayer1] : List CandLayer).length ∧
      (∀ t, t < ([blockedSingleLayer, scenarioLayer1] : List CandLayer).length →
        p.getD t 0 < widthAt [blockedSingleLayer, scenarioLayer1] t) ∧
      (2 ≤ ([blockedSingleLayer, scenarioLayer1] : List CandLayer).length →
        ∀ t, t < ([blockedSingleLayer, scenarioLayer1] : List CandLayer).length →
          blockedAt [blockedSingleLayer, scenarioLayer1] t (p.getD t 0) = false) :=
  c2_path_valid (weight_func_max (fun _ => 0) scenarioCfg)
    [blockedSingleLayer, scenarioLayer1] none (by decide)
    (of_decide_eq_true (by with_unfolding_all rfl))
    (by
      simp only [blockedSingleLayer, scenarioLayer1, List.map_cons, List.map_nil,
        List.chain'_cons, List.chain'_singleton, and_true]
      norm_num)
    (of_decide_eq_true (by with_unfolding_all rfl))
    (of_decide_eq_true (by with_unfolding_all rfl))

/-- Witness for C4 on the concrete two-layer scenario with the retention
threshold at infinity. -/
theorem c4_eps_infinity_greedy_witness :
    (shortest_path [scenarioLayer0, scenarioLayer1]
        (weight_func_max (fun _ => 0) ⟨1, false, none, false⟩) none false).map Prod.fst =
      some (greedyPath [scenarioLayer0, scenarioLayer1]) ∧
    greedyPath [scenarioLayer0, scenarioLayer1] =
      List.replicate ([scenarioLayer0, scenarioLayer1] : List CandLayer).length 0 :=
  c4_eps_infinity_greedy (fun _ => 0) 1 false false [scenarioLayer0, scenarioLayer1]
    rfl (by decide)
    (of_decide_eq_true (by with_unfolding_all rfl))
    (of_decide_eq_true (by with_unfolding_all rfl))

/-- Witness for C7 on a concrete two-layer input with blocking and
validation enabled. -/
theorem c7_determinism_tie_break_witness :
    shortest_path_exclude_candidates [blockedSingleLayer, scenarioLayer1]
        (weight_func_max (fun _ => 0) scenarioCfg) none true true =
      shortest_path_exclude_candidates [blockedSingleLayer, scenarioLayer1]
        (weight_func_max (fun _ => 0) scenarioCfg) none true true ∧
    (∃ p c, shortest_path_exclude_candidates [blockedSingleLayer, scenarioLayer1]
        (weight_func_max (fun _ => 0) scenarioCfg) none true true = some (p, c) ∧
      p.getD (([blockedSingleLayer, scenarioLayer1] : List CandLayer).length - 1) 0 =
        argminW ((dpRow (weight_func_max (fun _ => 0) scenarioCfg)
          [blockedSingleLayer, scenarioLayer1] true none
          (([blockedSingleLayer, scenarioLayer1] : List CandLayer).length - 1)).map
            (fun s => s.1))) ∧
    IsFirstMin (fun _ => true)
      (fun k => ((dpRow (weight_func_max (fun _ => 0) scenarioCfg)
        [blockedSingleLayer, scenarioLayer1] true none
        (([blockedSingleLayer, scenarioLayer1] : List CandLayer).length - 1)).map
          (fun s => s.1)).getD k ⊤)
      ((dpRow (weight_func_max (fun _ => 0) scenarioCfg)
        [blockedSingleLayer, scenarioLayer1] true none
        (([blockedSingleLayer, scenarioLayer1] : List CandLayer).length - 1)).map
          (fun s => s.1)).length
      (argminW ((dpRow (weight_func_max (fun _ => 0) scenarioCfg)
        [blockedSingleLayer, scenarioLayer1] true none
        (([blockedSingleLayer, scenarioLayer1] : List CandLayer).length - 1)).map
          (fun s => s.1))) ∧
    (∀ t j, t < ([blockedSingleLayer, scenarioLayer1] : List CandLayer).length →
      j < retainedAt [blockedSingleLayer, scenarioLayer1] none (t+1) →
      eligAt true [blockedSingleLayer, scenarioLayer1] (t+1) j = true →
      ∃ i0, parAt (weight_func_max (fun _ => 0) scenarioCfg)
          [blockedSingleLayer, scenarioLayer1] true none (t+1) j = Par.node i0 ∧
        IsFirstMin (fun i => eligAt true [blockedSingleLayer, scenarioLayer1] t i)
          (fun i => edgeVal (weight_func_max (fun _ => 0) scenarioCfg)
            [blockedSingleLayer, scenarioLayer1] true none t j i)
          (retainedAt [blockedSingleLayer, scenarioLayer1] none t) i0) :=
  c7_determinism_tie_break (weight_func_max (fun _ => 0) scenarioCfg)
    [blockedSingleLayer, scenarioLayer1] none true true (by decide)
    (fun _ => of_decide_eq_true (by with_unfolding_all rfl))
    (of_decide_eq_true (by with_unfolding_all rfl))

/-- Witness for C10: a single layer whose top candidate is blocked, with a
cutoff of 1 and blocking enabled; the blocked top candidate is still
returned. -/
theorem c10_single_layer_witness :
    shortest_path_exclude_candidates [blockedSingleLayer]
        (weight_func_max (fun _ => 0) scenarioCfg) (some 1) false true =
      some ([0], ((-(blockedSingleLayer.iokrscores.getD 0 0) : ℚ) : WithTop ℚ)) :=
  c10_single_layer blockedSingleLayer (weight_func_max (fun _ => 0) scenarioCfg)
    (some 1) true
    (of_decide_eq_true (by with_unfolding_all rfl))
    (of_decide_eq_true (by with_unfolding_all rfl))

theorem all_replicate_false (L : ℕ) (hL : 1 ≤ L) :
    (List.replicate L false).all (fun b => b) = false := by
  cases L with
  | zero => omega
  | succ n => rfl

theorem all_replicate_true (L : ℕ) :
    (List.replicate L true).all (fun b => b) = true := by
  induction L with
  | zero => rfl
  | succ n ih => simp [List.replicate_succ, ih]

theorem getD_replicate_lt {α : Type} (a d : α) (n j : ℕ) (h : j < n) :
    (List.replicate n a).getD j d = a := getD_replicate a d n j h

theorem tMap_replicate_false (L t : ℕ) (ht : t < L) :
    tMap (List.replicate L false) t = t := by
  unfold tMap
  have hfil : (List.range (List.replicate L false).length).filter
      (fun u => !((List.replicate L false).getD u true)) =
      List.range (List.replicate L false).length := by
    apply List.filter_eq_self.2
    intro u hu
    rw [List.length_replicate] at hu
    rw [getD_replicate_lt false true L u (List.mem_range.1 hu)]
    rfl
  rw [hfil, List.length_replicate]
  rw [List.getD_eq_getElem?_getD, List.getElem?_eq_getElem (by simpa using ht)]
  simp

theorem zip_replicate_false_filterMap :
    ∀ (layers : List CandLayer) (L : ℕ), layers.length = L →
      (layers.zip (List.replicate L false)).filterMap
        (fun p => if p.2 then none else some p.1) = layers
  | [], _, _ => by simp
  | l :: ls, L, hlen => by
    cases L with
    | zero => simp at hlen
    | succ n =>
      simp only [List.replicate_succ, List.zip_cons_cons, List.filterMap_cons]
      simp only [Bool.false_eq_true, if_false]
      rw [zip_replicate_false_filterMap ls n (by simpa using hlen)]

theorem filter_not_replicate_false (L : ℕ) :
    ((List.replicate L false).filter (fun b => !b)).length = L := by
  induction L with
  | zero => rfl
  | succ n ih => simp [List.replicate_succ, ih]

theorem count_set_true : ∀ (bl : List Bool) (j : ℕ), j < bl.length →
    bl.getD j false = false →
    (bl.set j true).count true = bl.count true + 1
  | [], j, h, _ => absurd h (by simp)
  | b :: bs, 0, _, hb => by
    have hb2 : b = false := hb
    subst hb2
    simp [List.count_cons]
  | b :: bs, j + 1, h, hb => by
    simp only [List.set_cons_succ, List.count_cons]
    rw [count_set_true bs j (by simpa using h) hb]
    omega

theorem exists_false_of_count_lt : ∀ (bl : List Bool), bl.count true < bl.length →
    ∃ j, j < bl.length ∧ bl.getD j false = false
  | [], h => absurd h (by simp)
  | b :: bs, h => by
    cases hb : b with
    | false => exact ⟨0, by simp, by simp⟩
    | true =>
      subst hb
      have hcount : bs.count true < bs.length := by
        simpa [List.count_cons] using h
      obtain ⟨j, hj, hjb⟩ := exists_false_of_count_lt bs hcount
      exact ⟨j + 1, by simpa using hj, by simpa using hjb⟩

theorem all_eq_false_of_count_lt (bl : List Bool) (h : bl.count true < bl.length) :
    bl.all (fun b => b) = false := by
  obtain ⟨j, hj, hjb⟩ := exists_false_of_count_lt bl h
  apply List.all_eq_false.2
  refine ⟨false, ?_, by simp⟩
  rw [← hjb]
  exact getD_mem_of_lt bl j false hj

theorem all_eq_true_of_count_eq (bl : List Bool) (h : bl.count true = bl.length) :
    bl.all (fun b => b) = true := by
  apply List.all_eq_true.2
  intro x hx
  have := (List.count_eq_length.1 h) x hx
  simp [← this]

theorem forall_mem_of_forall_getD {P : CandLayer → Prop} (layers : List CandLayer)
    (h : ∀ t, t < layers.length → P (layers.getD t emptyLayer)) : ∀ l ∈ layers, P l := by
  intro l hl
  obtain ⟨i, hi, heq⟩ := List.mem_iff_getElem.1 hl
  have h2 := h i hi
  rw [List.getD_eq_getElem?_getD, List.getElem?_eq_getElem hi] at h2
  rw [← heq]
  exact h2

theorem map_rt_eq_of_getD (layers1 layers2 : List CandLayer)
    (hlen : layers1.length = layers2.length)
    (h : ∀ u, u < layers1.length →
      (layers1.getD u emptyLayer).rt_cand_list = (layers2.getD u emptyLayer).rt_cand_list) :
    layers1.map (fun l => l.rt_cand_list) = layers2.map (fun l => l.rt_cand_list) := by
  apply List.ext_getElem
  · simp [hlen]
  · intro i h1 h2
    rw [List.length_map] at h1 h2
    rw [List.getElem_map, List.getElem_map]
    have := h i h1
    rw [List.getD_eq_getElem?_getD, List.getElem?_eq_getElem h1,
      List.getD_eq_getElem?_getD, List.getElem?_eq_getElem h2] at this
    simpa using this

theorem applyPath_cons (abl : List Bool) (t0 c : ℕ) (rest : List ℕ)
    (layers : List CandLayer) :
    (applyPath abl t0 (c :: rest) layers).2 =
      (applyPath abl (t0+1) rest
        (layers.set (tMap abl t0)
          { layers.getD (tMap abl t0) emptyLayer with
            is_blocked := (layers.getD (tMap abl t0) emptyLayer).is_blocked.set c true })).2 :=
  rfl

theorem applyPath_spec (L : ℕ) : ∀ (path : List ℕ) (t0 : ℕ) (layers : List CandLayer),
    layers.length = L → t0 + path.length ≤ L →
    ((applyPath (List.replicate L false) t0 path layers).2.length = L ∧
     (∀ u, u < L → ¬ (t0 ≤ u ∧ u < t0 + path.length) →
        (applyPath (List.replicate L false) t0 path layers).2.getD u emptyLayer =
          layers.getD u emptyLayer) ∧
     (∀ v, v < path.length →
        (applyPath (List.replicate L false) t0 path layers).2.getD (t0 + v) emptyLayer =
          { layers.getD (t0 + v) emptyLayer with
            is_blocked := (layers.getD (t0 + v) emptyLayer).is_blocked.set
              (path.getD v 0) true }))
  | [], t0, layers => by
    intro hlen _
    refine ⟨hlen, fun u _ _ => rfl, fun v hv => absurd hv (by simp)⟩
  | c :: rest, t0, layers => by
    intro hlen hle
    rw [List.length_cons] at hle
    have ht0 : t0 < L := by omega
    have htm : tMap (List.replicate L false) t0 = t0 := tMap_replicate_false L t0 ht0
    rw [applyPath_cons, htm]
    have hlen1 : (layers.set t0
        { layers.getD t0 emptyLayer with
          is_blocked := (layers.getD t0 emptyLayer).is_blocked.set c true }).length = L := by
      rw [List.length_set]
      exact hlen
    have hle1 : (t0 + 1) + rest.length ≤ L := by omega
    obtain ⟨ih1, ih2, ih3⟩ := applyPath_spec L rest (t0 + 1)
      (layers.set t0
        { layers.getD t0 emptyLayer with
          is_blocked := (layers.getD t0 emptyLayer).is_blocked.set c true })
      hlen1 hle1
    refine ⟨ih1, ?_, ?_⟩
    · intro u hu hnot
      rw [List.length_cons] at hnot
      rw [ih2 u hu (by omega)]
      apply getD_set_ne
      omega
    · intro v hv
      rw [List.length_cons] at hv
      cases v with
      | zero =>
        have h1 := ih2 t0 ht0 (by omega)
        simp only [Nat.add_zero]
        rw [h1, getD_set_self layers t0 _ emptyLayer (by omega)]
        rfl
      | succ v2 =>
        have hv2 : v2 < rest.length := by simpa using hv
        have harith : t0 + (v2 + 1) = (t0 + 1) + v2 := by omega
        rw [harith, ih3 v2 hv2,
          getD_set_ne layers t0 _ _ emptyLayer (by omega)]
        rfl

theorem rerankLoop_uniform (wf : WeightFun) (L W : ℕ) (hL : 2 ≤ L) :
    ∀ k fuel (layers : List CandLayer) (ncs : List ℕ) (ps : List (List ℕ))
      (ls : List (WithTop ℚ)),
      1 ≤ k → k ≤ W → k ≤ fuel →
      layers.length = L →
      (∀ u, u < L → (layers.getD u emptyLayer).iokrscores.Pairwise (fun a b => b < a)) →
      (∀ u, u < L → (layers.getD u emptyLayer).iokrscores.length = W) →
      ((layers.map (fun l => l.rt_cand_list)).Chain' (fun a b => a ≤ b)) →
      (∀ u, u < L → (layers.getD u emptyLayer).is_blocked.length = W) →
      (∀ u, u < L → (layers.getD u emptyLayer).is_blocked.count true = W - k) →
      ∃ r, rerankLoop wf none fuel (List.replicate L false) layers ncs ps ls = some r ∧
        r.1.length = ncs.length + k ∧ r.2.1.length = ps.length + k ∧
        r.2.2.1.length = ls.length + k := by
  intro k
  induction k with
  | zero => intro fuel layers ncs ps ls h1; omega
  | succ k ih =>
    intro fuel layers ncs ps ls _ hkW hkf hlen hdesc hwid hrt hbl hcount
    obtain ⟨f, rfl⟩ : ∃ f, fuel = f + 1 := ⟨fuel - 1, by omega⟩
    have hdescM : ∀ l ∈ layers, l.iokrscores.Pairwise (fun a b => b < a) :=
      forall_mem_of_forall_getD layers (fun t ht => hdesc t (hlen ▸ ht))
    have hblM : ∀ l ∈ layers, true = true → l.is_blocked.length = l.iokrscores.length :=
      forall_mem_of_forall_getD layers
        (fun t ht => fun _ => (hbl t (hlen ▸ ht)).trans (hwid t (hlen ▸ ht)).symm)
    have hchk : checkInputOk true layers = true :=
      checkInputOk_of_invariants true layers hdescM hblM hrt
    have havail : ∀ t, t < layers.length → ∃ i, i < retainedAt layers none t ∧
        eligAt true layers t i = true := by
      intro t ht
      have htL : t < L := hlen ▸ ht
      have hcnt : (layers.getD t emptyLayer).is_blocked.count true <
          (layers.getD t emptyLayer).is_blocked.length := by
        rw [hbl t htL, hcount t htL]
        omega
      obtain ⟨j, hj, hjb⟩ := exists_false_of_count_lt _ hcnt
      refine ⟨j, ?_, ?_⟩
      · have : retainedAt layers none t = (layers.getD t emptyLayer).iokrscores.length := rfl
        rw [this, hwid t htL]
        rw [hbl t htL] at hj
        exact hj
      · rw [eligAt_true_iff]
        unfold blockedAt
        rw [hjb]
        rfl
    obtain ⟨p, c, hsp, hplen, _, hfourth, _⟩ :=
      sp_valid wf layers none true true (by omega) (fun _ => hchk) havail
    have h2len : 2 ≤ layers.length := by omega
    have hplenL : p.length = L := by rw [hplen, hlen]
    -- facts about the blocking pass
    obtain ⟨hA1, hA2, hA3⟩ := applyPath_spec L p 0 layers hlen (by omega)
    have hnew : ∀ u, u < L →
        ((applyPath (List.replicate L false) 0 p layers).2.getD u emptyLayer) =
          { layers.getD u emptyLayer with
            is_blocked := (layers.getD u emptyLayer).is_blocked.set (p.getD u 0) true } := by
      intro u hu
      have := hA3 u (by omega)
      simpa using this
    have hpentries : ∀ u, u < L → p.getD u 0 < W ∧
        (layers.getD u emptyLayer).is_blocked.getD (p.getD u 0) false = false := by
      intro u hu
      have h4 := hfourth h2len u (hlen ▸ hu)
      constructor
      · have : retainedAt layers none u = (layers.getD u emptyLayer).iokrscores.length := rfl
        rw [this, hwid u hu] at h4
        exact h4.1
      · have he := h4.2
        rw [eligAt_true_iff] at he
        unfold blockedAt at he
        cases hb : (layers.getD u emptyLayer).is_blocked.getD (p.getD u 0) false with
        | false => rfl
        | true => rw [hb] at he; simp at he
    have hcount2 : ∀ u, u < L →
        ((applyPath (List.replicate L false) 0 p layers).2.getD u
          emptyLayer).is_blocked.count true = W - (k + 1) + 1 := by
      intro u hu
      rw [hnew u hu]
      have h1 := (hpentries u hu).1
      have h2 := (hpentries u hu).2
      have hlenbl := hbl u hu
      have := count_set_true (layers.getD u emptyLayer).is_blocked (p.getD u 0)
        (by rw [hlenbl]; exact h1) h2
      rw [this, hcount u hu]
    simp only [rerankLoop]
    rw [all_replicate_false L (by omega)]
    simp only [Bool.false_eq_true, if_false]
    rw [zip_replicate_false_filterMap layers L hlen, hsp]
    dsimp only
    rw [if_pos (by rw [hplenL, filter_not_replicate_false])]
    rcases Nat.eq_zero_or_pos k with hk0 | hkpos
    · -- last iteration: every layer becomes fully blocked
      subst hk0
      have hallb : ((applyPath (List.replicate L false) 0 p layers).2.map
          (fun l => l.is_blocked.all (fun b => b))) = List.replicate L true := by
        apply List.eq_replicate_iff.2
        refine ⟨by rw [List.length_map, hA1], ?_⟩
        intro b hb
        obtain ⟨l, hl, heq⟩ := List.mem_map.1 hb
        obtain ⟨i, hi, hil⟩ := List.mem_iff_getElem.1 hl
        have hiL : i < L := by rw [hA1] at hi; exact hi
        have hgetD : (applyPath (List.replicate L false) 0 p layers).2.getD i emptyLayer = l := by
          rw [List.getD_eq_getElem?_getD, List.getElem?_eq_getElem hi]
          simpa using hil
        rw [← heq]
        have hc := hcount2 i hiL
        rw [hgetD] at hc
        apply all_eq_true_of_count_eq
        rw [hc]
        have hbll : l.is_blocked.length = W := by
          have := hbl i hiL
          have h2 := hnew i hiL
          rw [hgetD] at h2
          rw [h2]
          simpa using this
        rw [hbll]
        omega
      rw [hallb]
      cases f with
      | zero =>
        rw [rerankLoop]
        refine ⟨_, rfl, by simp, by simp, by simp⟩
      | succ f2 =>
        rw [rerankLoop]
        rw [all_replicate_true L]
        simp only [if_true]
        refine ⟨_, rfl, by simp, by simp, by simp⟩
    · -- further iterations remain
      have hallf : ((applyPath (List.replicate L false) 0 p layers).2.map
          (fun l => l.is_blocked.all (fun b => b))) = List.replicate L false := by
        apply List.eq_replicate_iff.2
        refine ⟨by rw [List.length_map, hA1], ?_⟩
        intro b hb
        obtain ⟨l, hl, heq⟩ := List.mem_map.1 hb
        obtain ⟨i, hi, hil⟩ := List.mem_iff_getElem.1 hl
        have hiL : i < L := by rw [hA1] at hi; exact hi
        have hgetD : (applyPath (List.replicate L false) 0 p layers).2.getD i emptyLayer = l := by
          rw [List.getD_eq_getElem?_getD, List.getElem?_eq_getElem hi]
          simpa using hil
        rw [← heq]
        have hc := hcount2 i hiL
        rw [hgetD] at hc
        apply all_eq_false_of_count_lt
        rw [hc]
        have hbll : l.is_blocked.length = W := by
          have := hbl i hiL
          have h2 := hnew i hiL
          rw [hgetD] at h2
          rw [h2]
          simpa using this
        rw [hbll]
        omega
      rw [hallf]
      obtain ⟨r, hr, hr1, hr2, hr3⟩ := ih f (applyPath (List.replicate L false) 0 p layers).2
        (ncs ++ [(applyPath (List.replicate L false) 0 p layers).1]) (ps ++ [p]) (ls ++ [c])
        hkpos (by omega) (by omega) hA1
        (by
          intro u hu
          rw [hnew u hu]
          exact hdesc u hu)
        (by
          intro u hu
          rw [hnew u hu]
          exact hwid u hu)
        (by
          rw [map_rt_eq_of_getD (applyPath (List.replicate L false) 0 p layers).2 layers
            (by rw [hA1, hlen]) (by
              intro u hu
              rw [hA1] at hu
              rw [hnew u hu])]
          exact hrt)
        (by
          intro u hu
          rw [hnew u hu]
          simpa using hbl u hu)
        (by
          intro u hu
          rw [hcount2 u hu]
          omega)
      refine ⟨r, hr, ?_, ?_, ?_⟩
      · rw [hr1]
        simp
        omega
      · rw [hr2]
        simp
        omega
      · rw [hr3]
        simp
        omega

theorem count_true_replicate_false (n : ℕ) :
    (List.replicate n false).count true = 0 := by
  induction n with
  | zero => rfl
  | succ m ih => simp [List.replicate_succ, List.count_cons, ih]

/-- C5 (amended): with at least two layers, all of the same candidate
count `W >= 1`, strictly descending scores and non-decreasing retention
times, `perform_reranking_of_candidates` with `k > W` returns exactly `W`
accuracy/path/cost entries: every iteration blocks one fresh candidate in
every layer, so after `W` iterations every layer is exhausted and the loop
stops early.  (With a single layer the loop never exhausts and returns `k`
entries — see the counterexample.) -/
theorem c5_uniform_exhaustion (wf : WeightFun) (cd : List CandLayer) (W k : ℕ)
    (hL : 2 ≤ cd.length) (hW : 1 ≤ W) (hk : W < k)
    (hdesc : ∀ l ∈ cd, l.iokrscores.Pairwise (fun a b => b < a))
    (hwid : ∀ l ∈ cd, l.iokrscores.length = W)
    (hrt : (cd.map (fun l => l.rt_cand_list)).Chain' (fun a b => a ≤ b)) :
    (perform_reranking_of_candidates cd wf k none).map
      (fun r => (r.topk_accs.length, r.paths.length, r.lengths.length)) =
      some (W, W, W) := by
  have hrlen : (resetBlocked cd).length = cd.length := by simp [resetBlocked]
  have hrget : ∀ u, u < cd.length →
      (resetBlocked cd).getD u emptyLayer =
        { cd.getD u emptyLayer with
          is_blocked := List.replicate (cd.getD u emptyLayer).iokrscores.length false } := by
    intro u hu
    unfold resetBlocked
    exact getD_map_of_lt _ cd u hu emptyLayer emptyLayer
  have hcdget : ∀ u, u < cd.length → cd.getD u emptyLayer ∈ cd :=
    fun u hu => getD_mem_of_lt cd u emptyLayer hu
  obtain ⟨r, hr, hr1, hr2, hr3⟩ := rerankLoop_uniform wf cd.length W hL W k
    (resetBlocked cd) [] [] [] hW (le_refl W) (by omega) (by rw [hrlen])
    (by
      intro u hu
      rw [hrget u hu]
      exact hdesc (cd.getD u emptyLayer) (hcdget u hu))
    (by
      intro u hu
      rw [hrget u hu]
      exact hwid (cd.getD u emptyLayer) (hcdget u hu))
    (by
      rw [map_rt_eq_of_getD (resetBlocked cd) cd (by rw [hrlen]) (by
        intro u hu
        rw [hrlen] at hu
        rw [hrget u hu])]
      exact hrt)
    (by
      intro u hu
      rw [hrget u hu]
      simp only [List.length_replicate]
      exact hwid (cd.getD u emptyLayer) (hcdget u hu))
    (by
      intro u hu
      rw [hrget u hu]
      simp only [count_true_replicate_false]
      omega)
  unfold perform_reranking_of_candidates
  rw [hrlen, hr]
  simp only [Option.map_some']
  simp only [List.length_map, cumsum, cumsumAux_length]
  rw [hr1, hr2, hr3]
  simp

/-- Witness for C5 on a concrete two-layer input of uniform width 2 with
`k = 3`. -/
theorem c5_uniform_exhaustion_witness :
    (perform_reranking_of_candidates [scenarioLayer0, scenarioLayer1]
        (weight_func_max (fun _ => 0) scenarioCfg) 3 none).map
      (fun r => (r.topk_accs.length, r.paths.length, r.lengths.length)) =
      some (2, 2, 2) :=
  c5_uniform_exhaustion (weight_func_max (fun _ => 0) scenarioCfg)
    [scenarioLayer0, scenarioLayer1] 2 3 (by decide) (by decide) (by decide)
    (of_decide_eq_true (by with_unfolding_all rfl))
    (of_decide_eq_true (by with_unfolding_all rfl))
    (by
      simp only [scenarioLayer0, scenarioLayer1, List.map_cons, List.map_nil,
        List.chain'_cons, List.chain'_singleton, and_true]
      norm_num)
